import Mathlib

/-!
Verification of the PALMA tropical linear-algebra engine.

This file is a shallow embedding, in Lean 4, of the C sources of PALMA
(`palma.c`, `palma_ext.c`, `palma.h`): the semiring kernel, the dense and
sparse (CSR) matrices, Karp's eigenvalue algorithm, the power-iteration
eigenvector solver, the critical-node routine and the discrete-event
scheduler.  Machine integers (`palma_val_t`, a 32-bit signed integer) are
modelled as `Int` together with the two sentinel values `NEG_INF = INT32_MIN`
and `POS_INF = INT32_MAX`; every arithmetic step of the C code that widens to
64-bit or clamps is reproduced explicitly.  Fallible operations return
`Except palma_error_t` or pair their result with the final value of the
thread-local error slot.
-/

namespace Palma

/-- `PALMA_NEG_INF = INT32_MIN`, the negative-infinity sentinel. -/
def NEG_INF : Int := -2147483648

/-- `PALMA_POS_INF = INT32_MAX`, the positive-infinity sentinel. -/
def POS_INF : Int := 2147483647

/-- The semiring tag `palma_semiring_t`. -/
inductive SemiringTag where
  | maxplus
  | minplus
  | maxmin
  | minmax
  | boolean
deriving DecidableEq, Repr

/-- `palma_zero` from palma.c: the additive identity ε of each semiring. -/
def palma_zero : SemiringTag → Int
  | .maxplus => NEG_INF
  | .minplus => POS_INF
  | .maxmin => NEG_INF
  | .minmax => POS_INF
  | .boolean => 0

/-- `palma_one` from palma.c: the multiplicative identity e of each semiring. -/
def palma_one : SemiringTag → Int
  | .maxplus => 0
  | .minplus => 0
  | .maxmin => POS_INF
  | .minmax => NEG_INF
  | .boolean => 1

/-- `palma_add` from palma.c: ⊕ of each semiring. -/
def palma_add (a b : Int) (s : SemiringTag) : Int :=
  match s with
  | .maxplus | .maxmin => if b < a then a else b
  | .minplus | .minmax => if a < b then a else b
  | .boolean => if a ≠ 0 ∨ b ≠ 0 then 1 else 0

/-- `palma_mul` from palma.c: ⊗ of each semiring.  For the additive-tropical
semirings the C code first tests the two sentinels (NEG_INF before POS_INF),
then forms the sum in 64-bit (exact here) and clamps it to the 32-bit range. -/
def palma_mul (a b : Int) (s : SemiringTag) : Int :=
  match s with
  | .maxplus | .minplus =>
      if a = NEG_INF ∨ b = NEG_INF then NEG_INF
      else if a = POS_INF ∨ b = POS_INF then POS_INF
      else if POS_INF < a + b then POS_INF
      else if a + b < NEG_INF then NEG_INF
      else a + b
  | .maxmin => if a < b then a else b
  | .minmax => if b < a then a else b
  | .boolean => if a ≠ 0 ∧ b ≠ 0 then 1 else 0

/-- `palma_is_zero` from palma.c. -/
def palma_is_zero (a : Int) (s : SemiringTag) : Prop := a = palma_zero s

/-- The error taxonomy `palma_error_t` from palma.h. -/
inductive palma_error_t where
  | success
  | nullPtr
  | invalidDim
  | outOfMemory
  | invalidArg
  | notSquare
  | notConverged
  | fileOpen
  | fileRead
  | fileWrite
  | fileFormat
  | indexBounds
  | sparseFormat
  | unsupported
deriving DecidableEq, Repr

/-! ### Sparse CSR matrices -/

/-- `palma_sparse_t` from palma.h: CSR storage.  The `capacity` field of the C
struct is an allocation detail with no value semantics and is omitted;
`sparse_ensure_capacity` always succeeds in the model (memory is abstracted). -/
structure palma_sparse_t where
  rows : Nat
  cols : Nat
  nnz : Nat
  semiring : SemiringTag
  values : List Int
  col_idx : List Nat
  row_ptr : List Nat
deriving DecidableEq, Repr

/-- The binary-search loop inside `palma_sparse_get` (palma.c lines 455-467):
`while (start < end) { mid = start + (end-start)/2; ... }`; returns the stored
value when the column is found. -/
def sparse_get_loop (col_idx : List Nat) (values : List Int) (col start e : Nat) :
    Option Int :=
  if h : start < e then
    if col_idx.getD (start + (e - start) / 2) 0 = col then
      some (values.getD (start + (e - start) / 2) 0)
    else if col_idx.getD (start + (e - start) / 2) 0 < col then
      sparse_get_loop col_idx values col (start + (e - start) / 2 + 1) e
    else
      sparse_get_loop col_idx values col start (start + (e - start) / 2)
  else none
termination_by e - start
decreasing_by
  · omega
  · omega

/-- `palma_sparse_get` from palma.c.  The C function takes a possibly-NULL
pointer, modelled by `Option`: for NULL it returns `palma_zero(PALMA_MAXPLUS)`,
for out-of-range indices the ε of the matrix's own semiring, and otherwise it
binary-searches row `row`. -/
def palma_sparse_get (sp? : Option palma_sparse_t) (row col : Nat) : Int :=
  match sp? with
  | none => palma_zero .maxplus
  | some sp =>
      if sp.rows ≤ row ∨ sp.cols ≤ col then palma_zero sp.semiring
      else
        match sparse_get_loop sp.col_idx sp.values col
            (sp.row_ptr.getD row 0) (sp.row_ptr.getD (row + 1) 0) with
        | some v => v
        | none => palma_zero sp.semiring

/-- The linear scan inside `palma_sparse_set` (palma.c lines 501-503):
`while (pos < end && col_idx[pos] < col) pos++`. -/
def scanPos (col_idx : List Nat) (col pos e : Nat) : Nat :=
  if pos < e ∧ col_idx.getD pos 0 < col then scanPos col_idx col (pos + 1) e
  else pos
termination_by e - pos
decreasing_by
  · omega

/-- Insertion into a flat buffer: the `memmove` pair in `palma_sparse_set`
shifts the tail `[pos, nnz)` up by one slot and writes at `pos`. -/
def insertAt (l : List α) (i : Nat) (x : α) : List α :=
  l.take i ++ x :: l.drop i

/-- The row-pointer update loop of `palma_sparse_set`:
`for (r = row+1; r <= rows; r++) row_ptr[r]++`, i.e. every entry at an index
`≥ k` is incremented. -/
def bumpFrom (l : List Nat) (k : Nat) : List Nat :=
  match l, k with
  | [], _ => []
  | x :: xs, 0 => (x + 1) :: bumpFrom xs 0
  | x :: xs, k + 1 => x :: bumpFrom xs k

/-- `palma_sparse_set` from palma.c: bounds check, linear scan for the
position, overwrite when the column is present, otherwise shift-insert and
bump `row_ptr[row+1..rows]` and `nnz`. -/
def palma_sparse_set (sp : palma_sparse_t) (row col : Nat) (val : Int) :
    Except palma_error_t palma_sparse_t :=
  if sp.rows ≤ row ∨ sp.cols ≤ col then .error .indexBounds
  else
    let start := sp.row_ptr.getD row 0
    let e := sp.row_ptr.getD (row + 1) 0
    let pos := scanPos sp.col_idx col start e
    if pos < e ∧ sp.col_idx.getD pos 0 = col then
      .ok { sp with values := sp.values.set pos val }
    else
      .ok { sp with
            values := insertAt sp.values pos val
            col_idx := insertAt sp.col_idx pos col
            row_ptr := bumpFrom sp.row_ptr (row + 1)
            nnz := sp.nnz + 1 }

/-! ### Dense matrices -/

/-- `palma_matrix_t` from palma.h.  The flat row-major buffer with its stride
is modelled by its value semantics: a function from (row, column) to the
stored value. -/
structure palma_matrix_t where
  rows : Nat
  cols : Nat
  data : Nat → Nat → Int

/-- `palma_matrix_get` (palma.h, inline): element (i, j). -/
def palma_matrix_get (m : palma_matrix_t) (i j : Nat) : Int := m.data i j

/-- `palma_matrix_set` (palma.h, inline): overwrite element (i, j). -/
def palma_matrix_set (m : palma_matrix_t) (i j : Nat) (v : Int) : palma_matrix_t :=
  { m with data := fun i' j' => if i' = i ∧ j' = j then v else m.data i' j' }

/-- `palma_matrix_create_zero` from palma.c: an ε-filled matrix. -/
def palma_matrix_create_zero (rows cols : Nat) (s : SemiringTag) : palma_matrix_t :=
  ⟨rows, cols, fun _ _ => palma_zero s⟩

/-! ### Karp's eigenvalue algorithm -/

/-- The cast `(palma_val_t)x` of a 64-bit quantity to the 32-bit
`palma_val_t`: two's-complement truncation. -/
def wrap32 (x : Int) : Int := (x + 2147483648) % 4294967296 - 2147483648

/-- The dynamic-programming table of `palma_eigenvalue` (palma_ext.c lines
63-90): `D[0][v] = e`, and `D[k][v]` accumulates `D[k-1][u] ⊗ A[u][v]` over
all `u`, skipping terms where the edge or the previous entry equals ε. -/
def karpD (A : palma_matrix_t) (s : SemiringTag) : Nat → Nat → Int
  | 0, _ => palma_one s
  | k + 1, v =>
      (List.range A.rows).foldl
        (fun best u =>
          if palma_matrix_get A u v ≠ palma_zero s ∧ karpD A s k u ≠ palma_zero s then
            palma_add best (palma_mul (karpD A s k u) (palma_matrix_get A u v) s) s
          else best)
        (palma_zero s)

/-- One quotient of `palma_eigenvalue` (palma_ext.c lines 101-109):
`(palma_val_t)(diff / (int64_t)(n - k))` where `diff` is the 64-bit difference
`D[n][v] - D[k][v]` for MaxPlus/MinPlus and 0 for the other semirings; the
cast back to the 32-bit `palma_val_t` is `wrap32`. -/
def karpMeanCode (A : palma_matrix_t) (s : SemiringTag) (n k v : Nat) : Int :=
  wrap32 (Int.tdiv
    (if s = .maxplus ∨ s = .minplus then karpD A s n v - karpD A s k v else 0)
    ((n : Int) - (k : Int)))

/-- The inner `k` loop of `palma_eigenvalue`: the minimum quotient over the
`k < n` with `D[k][v] ≠ ε`, starting from `POS_INF`. -/
def karpMinCode (A : palma_matrix_t) (s : SemiringTag) (n v : Nat) : Int :=
  (List.range n).foldl
    (fun mv k =>
      if karpD A s k v ≠ palma_zero s then
        if karpMeanCode A s n k v < mv then karpMeanCode A s n k v else mv
      else mv)
    POS_INF

/-- The outer `v` loop of `palma_eigenvalue`: skip `v` when `D[n][v] = ε` or
when the inner minimum stayed `POS_INF`, otherwise keep the running maximum,
starting from `NEG_INF`. -/
def karpMaxCode (A : palma_matrix_t) (s : SemiringTag) (n : Nat) : Int :=
  (List.range n).foldl
    (fun max_mean v =>
      if karpD A s n v = palma_zero s then max_mean
      else
        if karpMinCode A s n v ≠ POS_INF ∧ max_mean < karpMinCode A s n v then
          karpMinCode A s n v
        else max_mean)
    NEG_INF

/-- `palma_eigenvalue` from palma_ext.c: Karp's maximum-cycle-mean rule,
decomposed into the loop functions above.  The result is paired with the
final value of the thread-local error slot (`palma_clear_error()` on the
normal path, `PALMA_ERR_NOT_SQUARE` on a non-square input). -/
def palma_eigenvalue (A : palma_matrix_t) (s : SemiringTag) : Int × palma_error_t :=
  if A.rows ≠ A.cols then (NEG_INF, .notSquare)
  else (karpMaxCode A s A.rows, .success)

/-- `palma_critical_nodes` from palma_ext.c: returns the count (−1 on a
non-square matrix) and the 0/1 marking array.  For each node pair (i, j) both
edges of the 2-cycle are tested against ε; in the additive-tropical case its
mean `(A[i,j] ⊗ A[j,i]) / 2` (C division) is compared with
`λ - PALMA_DEFAULT_TOL` (tol = 1); each node's self-loop is tested the same
way.  When λ = NEG_INF every mark is cleared and 0 is returned. -/
def palma_critical_nodes (A : palma_matrix_t) (s : SemiringTag) : Int × List Bool :=
  if A.rows ≠ A.cols then (-1, [])
  else
    let n := A.rows
    let lambda := (palma_eigenvalue A s).1
    if lambda = NEG_INF then (0, List.replicate n false)
    else
      let marks :=
        (List.range n).foldl
          (fun marks i =>
            let marks2 :=
              (List.range n).foldl
                (fun marks j =>
                  if palma_matrix_get A i j ≠ palma_zero s ∧
                      palma_matrix_get A j i ≠ palma_zero s then
                    if s = .maxplus ∨ s = .minplus then
                      if lambda - 1 ≤
                          Int.tdiv
                            (palma_mul (palma_matrix_get A i j)
                              (palma_matrix_get A j i) s) 2 then
                        (marks.set i true).set j true
                      else marks
                    else marks
                  else marks)
                marks
            if palma_matrix_get A i i ≠ palma_zero s ∧
                lambda - 1 ≤ palma_matrix_get A i i then
              marks2.set i true
            else marks2)
          (List.replicate n false)
      ((marks.count true : Nat), marks)

/-! ### The specification-side Karp formula (for claim C4)

`karpDspec` and `karpSpec` are written from the words of the specification,
not from the C source: the table is the full semiring reduction
`D[k][v] = ⊕ᵤ (D[k-1][u] ⊗ A[u,v])` without the source's ε-skips, and the
eigenvalue is `maxᵥ minₖ (D[n][v] − D[k][v]) / (n − k)` with exact integer
division truncating toward zero, skipping table entries equal to ε, with
`NEG_INF` when every `D[n][v]` is ε.  `karpAmended` is the same formula with
the two corrections the source forces: each quotient is truncated to 32 bits,
and a vertex whose inner minimum equals `POS_INF` is skipped. -/

/-- Specification-side table: `D[k][v] = ⊕ᵤ (D[k-1][u] ⊗ A[u,v])`. -/
def karpDspec (A : palma_matrix_t) (s : SemiringTag) : Nat → Nat → Int
  | 0, _ => palma_one s
  | k + 1, v =>
      (List.range A.rows).foldl
        (fun best u =>
          palma_add best (palma_mul (karpDspec A s k u) (palma_matrix_get A u v) s) s)
        (palma_zero s)

/-- The exact quotients `(D[n][v] − D[k][v]) / (n − k)` over the valid `k`. -/
def karpMeansSpec (A : palma_matrix_t) (v : Nat) : List Int :=
  ((List.range A.rows).filter
      (fun k => decide (karpDspec A .maxplus k v ≠ palma_zero .maxplus))).map
    (fun k =>
      Int.tdiv (karpDspec A .maxplus A.rows v - karpDspec A .maxplus k v)
        ((A.rows : Int) - (k : Int)))

/-- The claim's formula: `maxᵥ minₖ` of the exact quotients, skipping ε
entries, `NEG_INF` when every `D[n][v]` is ε. -/
def karpSpec (A : palma_matrix_t) : Int :=
  ((((List.range A.rows).filter
        (fun v => decide (karpDspec A .maxplus A.rows v ≠ palma_zero .maxplus))).map
      (fun v => ((karpMeansSpec A v).min?).getD POS_INF)).foldl max NEG_INF)

/-- The quotients of `karpMeansSpec`, truncated to 32 bits as the source does. -/
def karpMeansWrapped (A : palma_matrix_t) (v : Nat) : List Int :=
  ((List.range A.rows).filter
      (fun k => decide (karpDspec A .maxplus k v ≠ palma_zero .maxplus))).map
    (fun k =>
      wrap32 (Int.tdiv (karpDspec A .maxplus A.rows v - karpDspec A .maxplus k v)
        ((A.rows : Int) - (k : Int))))

/-- The inner minimum over the 32-bit truncated quotients. -/
def karpMinWrapped (A : palma_matrix_t) (v : Nat) : Int :=
  (karpMeansWrapped A v).foldl min POS_INF

/-- The amended formula: 32-bit truncated quotients, and a vertex whose inner
minimum equals `POS_INF` is skipped like an ε entry. -/
def karpAmended (A : palma_matrix_t) : Int :=
  (((List.range A.rows).filter
      (fun v => decide (karpDspec A .maxplus A.rows v ≠ palma_zero .maxplus ∧
        karpMinWrapped A v ≠ POS_INF))).map
    (fun v => karpMinWrapped A v)).foldl max NEG_INF

/-! ### Concrete matrices from the specification's scenarios -/

/-- Scenario D (two cycles, MaxPlus): A[1,0]=3, A[0,1]=5, A[2,0]=2, A[0,2]=4,
all other entries ε. -/
def matD : palma_matrix_t :=
  ⟨3, 3, fun i j =>
    if i = 1 ∧ j = 0 then 3
    else if i = 0 ∧ j = 1 then 5
    else if i = 2 ∧ j = 0 then 2
    else if i = 0 ∧ j = 2 then 4
    else NEG_INF⟩

/-- Scenario C (simple 3-cycle, MaxPlus): A[1,0]=5, A[2,1]=3, A[0,2]=4. -/
def matC : palma_matrix_t :=
  ⟨3, 3, fun i j =>
    if i = 1 ∧ j = 0 then 5
    else if i = 2 ∧ j = 1 then 3
    else if i = 0 ∧ j = 2 then 4
    else NEG_INF⟩

/-- A 1×1 Boolean matrix with a self-loop. -/
def matB1 : palma_matrix_t := ⟨1, 1, fun _ _ => 1⟩

/-- A 1×1 MaxPlus matrix whose single entry is the `POS_INF` sentinel. -/
def matP1 : palma_matrix_t := ⟨1, 1, fun _ _ => POS_INF⟩

/-! ### Matrix–vector product, eigenvector, scheduler -/

/-- `palma_matvec` from palma.c: `y[i] = ⊕ⱼ (A[i,j] ⊗ x[j])`.  The vector is a
list; out-of-range reads (which the C code never performs in the uses modelled
here) default to 0. -/
def palma_matvec (A : palma_matrix_t) (x : List Int) (s : SemiringTag) : List Int :=
  (List.range A.rows).map (fun i =>
    (List.range A.cols).foldl
      (fun sum j => palma_add sum (palma_mul (palma_matrix_get A i j) (x.getD j 0) s) s)
      (palma_zero s))

/-- One iteration body of `palma_eigenvector` (palma_ext.c lines 166-175):
`y ← A ⊗ x`, then for MaxPlus/MinPlus subtract λ from every non-ε component.
The C statement `y[i] -= lambda` is a 32-bit subtraction whose overflow is
undefined behaviour in C; it is modelled as exact integer subtraction. -/
def eigNormStep (A : palma_matrix_t) (s : SemiringTag) (lam : Int) (x : List Int) :
    List Int :=
  if s = .maxplus ∨ s = .minplus then
    (palma_matvec A x s).map (fun yi => if yi ≠ palma_zero s then yi - lam else yi)
  else palma_matvec A x s

/-- The bounded power-iteration loop of `palma_eigenvector`: convergence is
declared when the normalised iterate equals the previous one; when the fuel
runs out the last iterate is returned with `PALMA_ERR_NOT_CONVERGED`. -/
def eigLoop (A : palma_matrix_t) (s : SemiringTag) (lam : Int) :
    Nat → List Int → palma_error_t × List Int
  | 0, x => (.notConverged, x)
  | fuel + 1, x =>
      if eigNormStep A s lam x = x then (.success, eigNormStep A s lam x)
      else eigLoop A s lam fuel (eigNormStep A s lam x)

/-- `palma_eigenvector` from palma_ext.c: computes λ with `palma_eigenvalue`,
fills the eigenvector with ε and signals "not converged" when λ = NEG_INF,
otherwise power-iterates from the all-e vector (`max_iter = 0` selects the
default `PALMA_DEFAULT_MAX_ITER = 1000`).  Returns (error, eigenvector, λ). -/
def palma_eigenvector (A : palma_matrix_t) (s : SemiringTag) (max_iter : Nat) :
    palma_error_t × List Int × Int :=
  if A.rows ≠ A.cols then (.notSquare, [], 0)
  else
    if (palma_eigenvalue A s).1 = NEG_INF then
      (.notConverged, List.replicate A.rows (palma_zero s), (palma_eigenvalue A s).1)
    else
      ((eigLoop A s (palma_eigenvalue A s).1 (if max_iter = 0 then 1000 else max_iter)
          (List.replicate A.rows (palma_one s))).1,
       (eigLoop A s (palma_eigenvalue A s).1 (if max_iter = 0 then 1000 else max_iter)
          (List.replicate A.rows (palma_one s))).2,
       (palma_eigenvalue A s).1)

/-- `palma_scheduler_t` from palma.h: system matrix A, state x, input b.
Task names are presentation-only and omitted. -/
structure palma_scheduler_t where
  n_tasks : Nat
  semiring : SemiringTag
  system : palma_matrix_t
  state : List Int
  input : List Int

/-- `palma_scheduler_create` from palma_ext.c: ε-filled system matrix, state
and input. -/
def palma_scheduler_create (n_tasks : Nat) (use_maxplus : Bool) : palma_scheduler_t :=
  { n_tasks := n_tasks
    semiring := if use_maxplus then .maxplus else .minplus
    system := palma_matrix_create_zero n_tasks n_tasks
      (if use_maxplus then .maxplus else .minplus)
    state := List.replicate n_tasks (palma_zero (if use_maxplus then .maxplus else .minplus))
    input := List.replicate n_tasks (palma_zero (if use_maxplus then .maxplus else .minplus)) }

/-- `palma_scheduler_add_constraint` from palma_ext.c:
`A[to, from] ← A[to, from] ⊕ duration` (with bounds check). -/
def palma_scheduler_add_constraint (sched : palma_scheduler_t) (fromTask toTask : Nat)
    (duration : Int) : palma_error_t × palma_scheduler_t :=
  if sched.n_tasks ≤ fromTask ∨ sched.n_tasks ≤ toTask then (.indexBounds, sched)
  else
    (.success,
     { sched with
        system := palma_matrix_set sched.system toTask fromTask
          (palma_add (palma_matrix_get sched.system toTask fromTask) duration
            sched.semiring) })

/-- `palma_scheduler_set_ready_time` from palma_ext.c: `b[task] ⊕= r` and
`x[task] ⊕= r`. -/
def palma_scheduler_set_ready_time (sched : palma_scheduler_t) (task : Nat)
    (ready_time : Int) : palma_error_t × palma_scheduler_t :=
  if sched.n_tasks ≤ task then (.indexBounds, sched)
  else
    (.success,
     { sched with
        input := sched.input.set task
          (palma_add (sched.input.getD task 0) ready_time sched.semiring)
        state := sched.state.set task
          (palma_add (sched.state.getD task 0) ready_time sched.semiring) })

/-- One iteration of `palma_scheduler_solve` (palma_ext.c lines 440-450):
`temp ← A ⊗ prev`, then `x[i] ← (temp[i] ⊕ b[i]) ⊕ prev[i]`. -/
def schedStep (sched : palma_scheduler_t) (prev : List Int) : List Int :=
  (List.range sched.n_tasks).map (fun i =>
    palma_add
      (palma_add ((palma_matvec sched.system prev sched.semiring).getD i 0)
        (sched.input.getD i 0) sched.semiring)
      (prev.getD i 0) sched.semiring)

/-- The iteration loop of `palma_scheduler_solve`: counts iterations, stops
when the new state equals the previous one (returning `iter + 1` as the C
function does, with `true` recording that the convergence branch returned) or
when the fuel runs out (returning the iteration count with `false`). -/
def schedLoop (sched : palma_scheduler_t) : Nat → Nat → List Int → Nat × List Int × Bool
  | 0, iter, x => (iter, x, false)
  | fuel + 1, iter, x =>
      if schedStep sched x = x then (iter + 1, schedStep sched x, true)
      else schedLoop sched fuel (iter + 1) (schedStep sched x)

/-- `palma_scheduler_solve` from palma_ext.c: `max_iter = 0` selects the
default `n_tasks`; returns (return value, final state, converged flag). -/
def palma_scheduler_solve (sched : palma_scheduler_t) (max_iter : Nat) :
    Nat × List Int × Bool :=
  schedLoop sched (if max_iter = 0 then sched.n_tasks else max_iter) 0 sched.state

/-- The boot-schedule scheduler of scenario B: 6 MaxPlus tasks, the seven
constraints (from, to, duration) of the specification, ready time 0 for
task 0. -/
def schedB : palma_scheduler_t :=
  (palma_scheduler_set_ready_time
    (([((0 : Nat), (1 : Nat), (10 : Int)), (1, 2, 20), (1, 3, 20), (1, 4, 20),
       (2, 5, 15), (3, 5, 25), (4, 5, 30)]).foldl
      (fun sch c => (palma_scheduler_add_constraint sch c.1 c.2.1 c.2.2).2)
      (palma_scheduler_create 6 true))
    0 0).2

/-- A 1×1 MaxPlus matrix with a self-loop of weight 5 (eigenvalue 5). -/
def matE1 : palma_matrix_t := ⟨1, 1, fun _ _ => 5⟩

/-! ### CSR validity and the dense↔sparse conversions -/

/-- `row_ptr[r]` of a sparse matrix. -/
def rowStart (sp : palma_sparse_t) (r : Nat) : Nat := sp.row_ptr.getD r 0

/-- The column indices stored for row `r`: `col_idx[row_ptr[r] .. row_ptr[r+1])`. -/
def rowSlice (sp : palma_sparse_t) (r : Nat) : List Nat :=
  (sp.col_idx.take (rowStart sp (r + 1))).drop (rowStart sp r)

/-- The stored (column, value) pairs of row `r`. -/
def rowPairs (sp : palma_sparse_t) (r : Nat) : List (Nat × Int) :=
  (((sp.col_idx.zip sp.values)).take (rowStart sp (r + 1))).drop (rowStart sp r)

/-- The CSR invariants of the specification's data model (§3): consistent
lengths, `row_ptr[0] = 0`, `row_ptr[rows] = nnz`, monotone row pointers,
strictly ascending column indices within each row, in-range column indices. -/
abbrev csrValid (sp : palma_sparse_t) : Prop :=
  sp.row_ptr.length = sp.rows + 1 ∧
  sp.values.length = sp.nnz ∧
  sp.col_idx.length = sp.nnz ∧
  rowStart sp 0 = 0 ∧
  rowStart sp sp.rows = sp.nnz ∧
  (∀ r, r < sp.rows → rowStart sp r ≤ rowStart sp (r + 1)) ∧
  (∀ r, r < sp.rows → List.Pairwise (· < ·) (rowSlice sp r)) ∧
  (∀ k, k < sp.nnz → sp.col_idx.getD k 0 < sp.cols)

/-- A compressed CSR matrix additionally stores no ε values (§4.3). -/
abbrev csrCompressed (sp : palma_sparse_t) : Prop :=
  csrValid sp ∧ ∀ k, k < sp.nnz → sp.values.getD k 0 ≠ palma_zero sp.semiring

/-- The inner loop of `palma_sparse_to_dense`: write the stored entries of
row `i` into the dense matrix. -/
def writeRowK (sp : palma_sparse_t) (i : Nat) (dense : palma_matrix_t) : palma_matrix_t :=
  (List.range' (rowStart sp i) (rowStart sp (i + 1) - rowStart sp i)).foldl
    (fun dense k => palma_matrix_set dense i (sp.col_idx.getD k 0) (sp.values.getD k 0))
    dense

/-- `palma_sparse_to_dense` from palma.c: fill an ε matrix with the stored
values, row by row. -/
def palma_sparse_to_dense (sp : palma_sparse_t) : palma_matrix_t :=
  (List.range sp.rows).foldl (fun dense i => writeRowK sp i dense)
    (palma_matrix_create_zero sp.rows sp.cols sp.semiring)

/-- The (column, value) pairs of one dense row that `palma_sparse_from_dense`
stores: exactly the positions whose value differs from ε, in ascending column
order. -/
def denseRowEntries (M : palma_matrix_t) (s : SemiringTag) (i : Nat) : List (Nat × Int) :=
  (List.range M.cols).filterMap
    (fun j =>
      if palma_matrix_get M i j ≠ palma_zero s then some (j, palma_matrix_get M i j)
      else none)

/-- `palma_sparse_from_dense` from palma.c.  The C function makes two passes:
count the non-ε entries, then fill `values`/`col_idx` row-major with a running
index, recording the running index in `row_ptr[i]` at the start of row `i`
(so `row_ptr[r]` is the total number of non-ε entries of rows `0..r-1`) and
finally `row_ptr[rows] = nnz`. -/
def palma_sparse_from_dense (M : palma_matrix_t) (s : SemiringTag) : palma_sparse_t :=
  { rows := M.rows
    cols := M.cols
    nnz := (((List.range M.rows).map (denseRowEntries M s)).flatten).length
    semiring := s
    values := (((List.range M.rows).map (denseRowEntries M s)).flatten).map Prod.snd
    col_idx := (((List.range M.rows).map (denseRowEntries M s)).flatten).map Prod.fst
    row_ptr := (List.range (M.rows + 1)).map
      (fun r => ((((List.range M.rows).map (denseRowEntries M s)).take r).map
        List.length).sum) }

/-- Lookup of the stored value for column `j` in a row's (column, value)
pairs, defaulting to ε — the read-view of one CSR row. -/
def rowLookup (l : List (Nat × Int)) (eps : Int) (j : Nat) : Int :=
  match l.find? (fun p => p.1 == j) with
  | some p => p.2
  | none => eps

/-! ### Claims C3, C6 and C10: the semiring kernel and sparse access -/

/-- Claim C3, counterexample: in MinPlus the ε is `POS_INF`, yet
`palma_mul(NEG_INF, ε, MinPlus)` returns `NEG_INF` (the NEG_INF sentinel test
comes first in the C code), not ε.  Absorption fails at `a = NEG_INF`. -/
theorem c3_absorption_counterexample :
    palma_mul NEG_INF (palma_zero .minplus) .minplus ≠ palma_zero .minplus := by
  decide

/-- Claim C3, amended: for every semiring `s` and every representable value
`a`, `palma_mul(a, palma_zero(s), s) = palma_zero(s)` — except in MinPlus for
the single operand `a = NEG_INF`, where the result is `NEG_INF` instead of ε
(= `POS_INF`), because the C code tests the `NEG_INF` sentinel first. -/
theorem c3_absorption_amended (s : SemiringTag) (a : Int)
    (hlo : NEG_INF ≤ a) (hhi : a ≤ POS_INF)
    (hmp : s = .minplus → a ≠ NEG_INF) :
    palma_mul a (palma_zero s) s = palma_zero s := by
  cases s with
  | maxplus => simp [palma_mul, palma_zero]
  | minplus =>
      have ha : a ≠ -2147483648 := hmp rfl
      simp [palma_mul, palma_zero, ha, NEG_INF, POS_INF]
  | maxmin =>
      simp only [palma_mul, palma_zero]
      rw [if_neg]
      omega
  | minmax =>
      simp only [palma_mul, palma_zero]
      rw [if_neg]
      omega
  | boolean => simp [palma_mul, palma_zero]

/-- Witness for `c3_absorption_amended` at `s = MaxMin`, `a = 7`. -/
theorem c3_absorption_amended_witness :
    palma_mul 7 (palma_zero .maxmin) .maxmin = palma_zero .maxmin :=
  c3_absorption_amended .maxmin 7 (by decide) (by decide) (by intro h; cases h)

/-- Claim C6: for MaxPlus and MinPlus, `palma_mul` on two non-sentinel
operands computes the exact (64-bit) sum and clamps it to the 32-bit range —
sums above `INT32_MAX` give `POS_INF`, sums below `INT32_MIN` give `NEG_INF`,
never wrapping; moreover `mul(POS_INF, 1) = POS_INF` (this is also the
`mul(INT32_MAX, 1)` case, since `POS_INF = INT32_MAX`) and
`mul(INT32_MIN + 1, -2) = NEG_INF`. -/
theorem c6_mul_saturation (s : SemiringTag) (hs : s = .maxplus ∨ s = .minplus) :
    (∀ a b : Int, NEG_INF < a → a < POS_INF → NEG_INF < b → b < POS_INF →
      palma_mul a b s =
        if POS_INF < a + b then POS_INF
        else if a + b < NEG_INF then NEG_INF
        else a + b)
    ∧ palma_mul POS_INF 1 s = POS_INF
    ∧ palma_mul (NEG_INF + 1) (-2) s = NEG_INF := by
  have main : ∀ a b : Int, NEG_INF < a → a < POS_INF → NEG_INF < b → b < POS_INF →
      palma_mul a b s =
        if POS_INF < a + b then POS_INF
        else if a + b < NEG_INF then NEG_INF
        else a + b := by
    intro a b ha1 ha2 hb1 hb2
    rcases hs with h | h <;> subst h <;>
      · simp only [palma_mul]
        rw [if_neg (by omega), if_neg (by omega)]
  refine ⟨main, ?_, ?_⟩ <;> rcases hs with h | h <;> subst h <;> decide

/-- Witness for `c6_mul_saturation` at `s = MaxPlus` and operands
`(2147483646, 1)` (sum just past `INT32_MAX`, clamps to `POS_INF`). -/
theorem c6_mul_saturation_witness :
    palma_mul 2147483646 1 .maxplus =
      (if POS_INF < (2147483646 : Int) + 1 then POS_INF
       else if (2147483646 : Int) + 1 < NEG_INF then NEG_INF
       else 2147483646 + 1) :=
  (c6_mul_saturation .maxplus (Or.inl rfl)).1 2147483646 1
    (by decide) (by decide) (by decide) (by decide)

/-- Claim C10: `palma_sparse_get` is total on indices — for any row or column
outside the matrix it silently returns the ε of the matrix's semiring, for a
NULL matrix the MaxPlus ε (`NEG_INF`), while `palma_sparse_set` on the same
out-of-range indices returns `PALMA_ERR_INDEX_BOUNDS`. -/
theorem c10_sparse_get_total (sp : palma_sparse_t) (row col : Nat)
    (h : sp.rows ≤ row ∨ sp.cols ≤ col) :
    palma_sparse_get (some sp) row col = palma_zero sp.semiring
    ∧ palma_sparse_get none row col = palma_zero .maxplus
    ∧ palma_zero .maxplus = NEG_INF
    ∧ ∀ val : Int, palma_sparse_set sp row col val = .error .indexBounds := by
  refine ⟨?_, rfl, rfl, ?_⟩
  · simp [palma_sparse_get, h]
  · intro val
    simp [palma_sparse_set, h]

/-- Witness for `c10_sparse_get_total`: a concrete 2×2 empty MaxMin CSR matrix
queried at row 5. -/
theorem c10_sparse_get_total_witness :
    palma_sparse_get (some ⟨2, 2, 0, .maxmin, [], [], [0, 0, 0]⟩) 5 0 =
      palma_zero .maxmin
    ∧ palma_sparse_get none 5 0 = palma_zero .maxplus
    ∧ palma_zero .maxplus = NEG_INF
    ∧ ∀ val : Int,
        palma_sparse_set ⟨2, 2, 0, .maxmin, [], [], [0, 0, 0]⟩ 5 0 val =
          .error .indexBounds :=
  c10_sparse_get_total ⟨2, 2, 0, .maxmin, [], [], [0, 0, 0]⟩ 5 0 (by left; decide)

end Palma

namespace Palma

/-! ### Claim C1: scenario D (two cycles) -/

/-- Claim C1, counterexample: on scenario D the routine marks node 2 as
critical — the 2-cycle (0,2) has mean `(4 ⊗ 2)/2 = 3 ≥ λ − tol = 4 − 1`, so
the source's own marking rule fires — contradicting the scenario's statement
that node 2 is not marked. -/
theorem c1_critical_nodes_counterexample :
    (palma_critical_nodes matD .maxplus).2.getD 2 false = true := by
  decide

/-- Claim C1, amended: on scenario D `palma_eigenvalue` returns 4 (with a
clear error slot) and `palma_critical_nodes` marks all three nodes 0, 1 and 2
(count 3): nodes 0 and 1 through the 2-cycle of mean 4, and nodes 0 and 2
because the 2-cycle (0,2) has mean 3, which also reaches λ − tol = 3. -/
theorem c1_critical_nodes_amended :
    palma_eigenvalue matD .maxplus = (4, .success)
    ∧ palma_critical_nodes matD .maxplus = (3, [true, true, true]) := by
  decide

/-! ### Claim C2: eigenvalue on the non-additive semirings -/

/-- Claim C2, counterexample: on the 1×1 Boolean matrix with a self-loop,
`palma_eigenvalue` returns the zero-based cycle mean 0 — not `NEG_INF` — and
leaves the error slot at `PALMA_SUCCESS`, never signalling "unsupported". -/
theorem c2_unsupported_counterexample :
    (palma_eigenvalue matB1 .boolean).1 ≠ NEG_INF
    ∧ (palma_eigenvalue matB1 .boolean).2 = .success := by
  decide

/-! ### Claim C4: Karp's rule on MaxPlus -/

/-- Claim C4, counterexample: on the 1×1 MaxPlus matrix whose entry is the
`POS_INF` sentinel, the claimed formula gives `POS_INF` (the only quotient is
`(POS_INF − 0)/1`), but `palma_eigenvalue` returns `NEG_INF`: the source
additionally discards a vertex whose inner minimum equals `POS_INF`. -/
theorem c4_karp_counterexample :
    (palma_eigenvalue matP1 .maxplus).1 ≠ karpSpec matP1 := by
  decide

end Palma

namespace Palma

/-! ### Lemmas: the eigenvalue loops on the non-additive semirings (C2) -/

theorem palma_one_ne_zero (s : SemiringTag) : palma_one s ≠ palma_zero s := by
  cases s <;> decide

theorem karpD_zero_eq_one (A : palma_matrix_t) (s : SemiringTag) (v : Nat) :
    karpD A s 0 v = palma_one s := rfl

theorem karpMeanCode_nonadd (A : palma_matrix_t) (s : SemiringTag)
    (hna : ¬(s = .maxplus ∨ s = .minplus)) (n k v : Nat) :
    karpMeanCode A s n k v = 0 := by
  unfold karpMeanCode
  rw [if_neg hna, Int.zero_tdiv]
  decide

theorem karpMin_fold_stays_zero (A : palma_matrix_t) (s : SemiringTag)
    (hna : ¬(s = .maxplus ∨ s = .minplus)) (n v : Nat) :
    ∀ l : List Nat,
      l.foldl
        (fun mv k =>
          if karpD A s k v ≠ palma_zero s then
            if karpMeanCode A s n k v < mv then karpMeanCode A s n k v else mv
          else mv)
        0 = 0 := by
  intro l
  induction l with
  | nil => rfl
  | cons k rest ih =>
      simp only [List.foldl_cons]
      have hstep :
          (if karpD A s k v ≠ palma_zero s then
            if karpMeanCode A s n k v < 0 then karpMeanCode A s n k v else 0
          else (0 : Int)) = 0 := by
        rw [karpMeanCode_nonadd A s hna]
        simp
      rw [hstep]
      exact ih

theorem karpMinCode_nonadd (A : palma_matrix_t) (s : SemiringTag)
    (hna : ¬(s = .maxplus ∨ s = .minplus)) (m v : Nat) :
    karpMinCode A s (m + 1) v = 0 := by
  unfold karpMinCode
  rw [List.range_succ_eq_map]
  simp only [List.foldl_cons]
  have h0 : karpD A s 0 v ≠ palma_zero s := by
    rw [karpD_zero_eq_one]
    exact palma_one_ne_zero s
  rw [if_pos h0, karpMeanCode_nonadd A s hna]
  rw [if_pos (by decide : (0 : Int) < POS_INF)]
  exact karpMin_fold_stays_zero A s hna (m + 1) v _

theorem karpMax_fold_stays_zero (A : palma_matrix_t) (s : SemiringTag) (n : Nat) :
    ∀ l : List Nat, (∀ v ∈ l, karpMinCode A s n v = 0) →
      l.foldl
        (fun max_mean v =>
          if karpD A s n v = palma_zero s then max_mean
          else
            if karpMinCode A s n v ≠ POS_INF ∧ max_mean < karpMinCode A s n v then
              karpMinCode A s n v
            else max_mean)
        0 = 0 := by
  intro l
  induction l with
  | nil => intro _; rfl
  | cons v rest ih =>
      intro hmin
      simp only [List.foldl_cons]
      have hv := hmin v (List.mem_cons_self v rest)
      have hstep :
          (if karpD A s n v = palma_zero s then (0 : Int)
          else
            if karpMinCode A s n v ≠ POS_INF ∧ (0 : Int) < karpMinCode A s n v then
              karpMinCode A s n v
            else 0) = 0 := by
        rw [hv]
        simp
      rw [hstep]
      exact ih fun u hu => hmin u (List.mem_cons_of_mem v hu)

theorem karpMax_fold_from_neg (A : palma_matrix_t) (s : SemiringTag) (n : Nat) :
    ∀ l : List Nat, (∀ v ∈ l, karpMinCode A s n v = 0) →
      l.foldl
        (fun max_mean v =>
          if karpD A s n v = palma_zero s then max_mean
          else
            if karpMinCode A s n v ≠ POS_INF ∧ max_mean < karpMinCode A s n v then
              karpMinCode A s n v
            else max_mean)
        NEG_INF =
        if ∃ v ∈ l, karpD A s n v ≠ palma_zero s then 0 else NEG_INF := by
  intro l
  induction l with
  | nil => intro _; simp
  | cons v rest ih =>
      intro hmin
      have hv := hmin v (List.mem_cons_self v rest)
      have hrest : ∀ u ∈ rest, karpMinCode A s n u = 0 :=
        fun u hu => hmin u (List.mem_cons_of_mem v hu)
      simp only [List.foldl_cons]
      by_cases h : karpD A s n v = palma_zero s
      · rw [if_pos h, ih hrest]
        have hiff : (∃ u ∈ v :: rest, karpD A s n u ≠ palma_zero s) ↔
            (∃ u ∈ rest, karpD A s n u ≠ palma_zero s) := by
          constructor
          · rintro ⟨u, hu, hne⟩
            rcases List.mem_cons.mp hu with rfl | hu'
            · exact absurd h hne
            · exact ⟨u, hu', hne⟩
          · rintro ⟨u, hu, hne⟩
            exact ⟨u, List.mem_cons_of_mem v hu, hne⟩
        rw [if_congr hiff rfl rfl]
      · rw [if_neg h, hv, if_pos ⟨by decide, by decide⟩]
        rw [karpMax_fold_stays_zero A s n rest hrest]
        rw [if_pos ⟨v, List.mem_cons_self v rest, h⟩]

/-- Claim C2, amended: for the semirings MaxMin, MinMax and Boolean,
`palma_eigenvalue` does not report an undefined spectrum.  The hard-coded zero
difference makes every quotient 0, so on a square matrix it returns the
zero-based mean 0 whenever some `D[n][v] ≠ ε` (an n-edge walk ends at some
vertex) and `NEG_INF` otherwise, and it leaves the error slot at
`PALMA_SUCCESS` — the "unsupported" signal is never raised. -/
theorem c2_eigenvalue_nonadditive (A : palma_matrix_t) (s : SemiringTag)
    (hs : s = .maxmin ∨ s = .minmax ∨ s = .boolean) (hsq : A.rows = A.cols) :
    palma_eigenvalue A s =
      ((if ∃ v ∈ List.range A.rows, karpD A s A.rows v ≠ palma_zero s then 0
        else NEG_INF), .success) := by
  have hna : ¬(s = .maxplus ∨ s = .minplus) := by
    rcases hs with h | h | h <;> subst h <;> decide
  unfold palma_eigenvalue
  rw [if_neg (by simp [hsq])]
  unfold karpMaxCode
  rw [karpMax_fold_from_neg A s A.rows (List.range A.rows)]
  intro v hv
  have hvn : v < A.rows := List.mem_range.mp hv
  rcases Nat.exists_eq_succ_of_ne_zero (by omega : A.rows ≠ 0) with ⟨m, hm⟩
  rw [hm]
  exact karpMinCode_nonadd A s hna m v

/-- Witness for `c2_eigenvalue_nonadditive` at the 1×1 Boolean matrix with a
self-loop (where the returned value is 0). -/
theorem c2_eigenvalue_nonadditive_witness :
    palma_eigenvalue matB1 .boolean =
      ((if ∃ v ∈ List.range matB1.rows,
            karpD matB1 .boolean matB1.rows v ≠ palma_zero .boolean then 0
        else NEG_INF), .success) :=
  c2_eigenvalue_nonadditive matB1 .boolean (Or.inr (Or.inr rfl)) rfl

end Palma

namespace Palma

/-! ### Lemmas: Karp's rule on MaxPlus (C4) -/

theorem palma_add_maxplus_lb (b x : Int) (hb : NEG_INF ≤ b) :
    NEG_INF ≤ palma_add b x .maxplus := by
  simp only [palma_add]
  split <;> omega

theorem palma_add_maxplus_eps (b : Int) (hb : NEG_INF ≤ b) :
    palma_add b NEG_INF .maxplus = b := by
  simp only [palma_add]
  split <;> omega

theorem palma_mul_maxplus_eps (x y : Int) (h : x = NEG_INF ∨ y = NEG_INF) :
    palma_mul x y .maxplus = NEG_INF := by
  simp only [palma_mul]
  rw [if_pos h]

theorem karpD_fold_aux (A : palma_matrix_t) (k v : Nat)
    (ih : ∀ u, karpD A .maxplus k u = karpDspec A .maxplus k u) :
    ∀ (l : List Nat) (b : Int), NEG_INF ≤ b →
      l.foldl
        (fun best u =>
          if palma_matrix_get A u v ≠ palma_zero .maxplus ∧
              karpD A .maxplus k u ≠ palma_zero .maxplus then
            palma_add best
              (palma_mul (karpD A .maxplus k u) (palma_matrix_get A u v) .maxplus) .maxplus
          else best)
        b
      = l.foldl
          (fun best u =>
            palma_add best
              (palma_mul (karpDspec A .maxplus k u) (palma_matrix_get A u v) .maxplus) .maxplus)
          b := by
  intro l
  induction l with
  | nil => intro b _; rfl
  | cons u rest ihl =>
      intro b hb
      simp only [List.foldl_cons]
      by_cases hg : palma_matrix_get A u v ≠ palma_zero .maxplus ∧
          karpD A .maxplus k u ≠ palma_zero .maxplus
      · rw [if_pos hg, ih u]
        exact ihl _ (palma_add_maxplus_lb _ _ hb)
      · rw [if_neg hg]
        have hmul : palma_mul (karpDspec A .maxplus k u) (palma_matrix_get A u v)
            .maxplus = NEG_INF := by
          rcases not_and_or.mp hg with h | h
          · exact palma_mul_maxplus_eps _ _ (Or.inr ((not_not.mp h).trans rfl))
          · exact palma_mul_maxplus_eps _ _
              (Or.inl (((ih u).symm.trans (not_not.mp h)).trans rfl))
        rw [hmul, palma_add_maxplus_eps b hb]
        exact ihl b hb

theorem karpD_eq_spec (A : palma_matrix_t) :
    ∀ k v : Nat, karpD A .maxplus k v = karpDspec A .maxplus k v := by
  intro k
  induction k with
  | zero => intro v; rfl
  | succ k ih =>
      intro v
      simp only [karpD, karpDspec]
      exact karpD_fold_aux A k v ih (List.range A.rows) (palma_zero .maxplus) (by decide)

theorem foldl_guard_filter {α β : Type} (P : α → Prop) [DecidablePred P] (f : β → α → β) :
    ∀ (l : List α) (b : β),
      l.foldl (fun acc x => if P x then f acc x else acc) b
        = (l.filter fun x => decide (P x)).foldl f b := by
  intro l
  induction l with
  | nil => intro b; rfl
  | cons x rest ih =>
      intro b
      by_cases h : P x
      · simp only [List.foldl_cons, List.filter_cons, decide_eq_true_eq, if_pos h]
        exact ih (f b x)
      · simp only [List.foldl_cons, List.filter_cons, decide_eq_true_eq, if_neg h]
        exact ih b

theorem foldl_if_min {α : Type} (g : α → Int) :
    ∀ (l : List α) (b : Int),
      l.foldl (fun mv k => if g k < mv then g k else mv) b = (l.map g).foldl min b := by
  intro l
  induction l with
  | nil => intro b; rfl
  | cons x rest ih =>
      intro b
      simp only [List.foldl_cons, List.map_cons]
      rw [ih]
      congr 1
      rw [min_def]
      split <;> split <;> omega

theorem foldl_if_max {α : Type} (g : α → Int) :
    ∀ (l : List α) (b : Int),
      l.foldl (fun mm v => if mm < g v then g v else mm) b = (l.map g).foldl max b := by
  intro l
  induction l with
  | nil => intro b; rfl
  | cons x rest ih =>
      intro b
      simp only [List.foldl_cons, List.map_cons]
      rw [ih]
      congr 1
      rw [max_def]
      split <;> split <;> omega

theorem karpMeanCode_maxplus (A : palma_matrix_t) (n k v : Nat) :
    karpMeanCode A .maxplus n k v =
      wrap32 (Int.tdiv (karpDspec A .maxplus n v - karpDspec A .maxplus k v)
        ((n : Int) - (k : Int))) := by
  unfold karpMeanCode
  rw [if_pos (Or.inl rfl), karpD_eq_spec, karpD_eq_spec]

theorem karpMinCode_maxplus (A : palma_matrix_t) (v : Nat) :
    karpMinCode A .maxplus A.rows v = karpMinWrapped A v := by
  unfold karpMinCode karpMinWrapped karpMeansWrapped
  have hstep : (fun (mv : Int) (k : Nat) =>
      if karpD A .maxplus k v ≠ palma_zero .maxplus then
        if karpMeanCode A .maxplus A.rows k v < mv then karpMeanCode A .maxplus A.rows k v
        else mv
      else mv)
      = (fun (mv : Int) (k : Nat) =>
        if karpDspec A .maxplus k v ≠ palma_zero .maxplus then
          if wrap32 (Int.tdiv (karpDspec A .maxplus A.rows v - karpDspec A .maxplus k v)
              ((A.rows : Int) - (k : Int))) < mv then
            wrap32 (Int.tdiv (karpDspec A .maxplus A.rows v - karpDspec A .maxplus k v)
              ((A.rows : Int) - (k : Int)))
          else mv
        else mv) := by
    funext mv k
    rw [karpMeanCode_maxplus, karpD_eq_spec]
  rw [hstep]
  exact (foldl_guard_filter (fun k => karpDspec A .maxplus k v ≠ palma_zero .maxplus)
      (fun mv k =>
        if wrap32 (Int.tdiv (karpDspec A .maxplus A.rows v - karpDspec A .maxplus k v)
            ((A.rows : Int) - (k : Int))) < mv then
          wrap32 (Int.tdiv (karpDspec A .maxplus A.rows v - karpDspec A .maxplus k v)
            ((A.rows : Int) - (k : Int)))
        else mv)
      (List.range A.rows) POS_INF).trans
    (foldl_if_min
      (fun k => wrap32 (Int.tdiv (karpDspec A .maxplus A.rows v - karpDspec A .maxplus k v)
        ((A.rows : Int) - (k : Int)))) _ POS_INF)

theorem karpMaxCode_maxplus (A : palma_matrix_t) :
    karpMaxCode A .maxplus A.rows = karpAmended A := by
  unfold karpMaxCode karpAmended
  have hstep : (fun (mm : Int) (v : Nat) =>
      if karpD A .maxplus A.rows v = palma_zero .maxplus then mm
      else
        if karpMinCode A .maxplus A.rows v ≠ POS_INF ∧
            mm < karpMinCode A .maxplus A.rows v then
          karpMinCode A .maxplus A.rows v
        else mm)
      = (fun (mm : Int) (v : Nat) =>
        if karpDspec A .maxplus A.rows v ≠ palma_zero .maxplus ∧
            karpMinWrapped A v ≠ POS_INF then
          if mm < karpMinWrapped A v then karpMinWrapped A v else mm
        else mm) := by
    funext mm v
    rw [karpD_eq_spec, karpMinCode_maxplus]
    by_cases h1 : karpDspec A .maxplus A.rows v = palma_zero .maxplus
    · rw [if_pos h1, if_neg (by tauto)]
    · rw [if_neg h1]
      by_cases h2 : karpMinWrapped A v ≠ POS_INF
      · by_cases h3 : mm < karpMinWrapped A v
        · rw [if_pos ⟨h2, h3⟩, if_pos ⟨h1, h2⟩, if_pos h3]
        · rw [if_neg (by tauto), if_pos ⟨h1, h2⟩, if_neg h3]
      · rw [if_neg (by tauto), if_neg (by tauto)]
  rw [hstep]
  exact (foldl_guard_filter
      (fun v => karpDspec A .maxplus A.rows v ≠ palma_zero .maxplus ∧
        karpMinWrapped A v ≠ POS_INF)
      (fun mm v => if mm < karpMinWrapped A v then karpMinWrapped A v else mm)
      (List.range A.rows) NEG_INF).trans
    (foldl_if_max (fun v => karpMinWrapped A v) _ NEG_INF)

/-- Claim C4, amended: on every square MaxPlus matrix, `palma_eigenvalue`
computes Karp's rule with the table `D[0][v] = e`,
`D[k][v] = ⊕ᵤ (D[k−1][u] ⊗ A[u,v])`, returning the maximum over `v` of the
minimum over `k < n` with `D[k][v] ≠ ε` of
`(D[n][v] − D[k][v]) / (n − k)` — with truncating integer division whose
64-bit quotient is then cast back to the 32-bit `palma_val_t` — where a `v`
with `D[n][v] = ε` or whose inner minimum equals `POS_INF` is skipped, and
`NEG_INF` is returned when every `v` is skipped; on the 3-cycle of scenario C
it returns 4. -/
theorem c4_karp_rule (A : palma_matrix_t) (hsq : A.rows = A.cols) :
    palma_eigenvalue A .maxplus = (karpAmended A, .success)
    ∧ (palma_eigenvalue matC .maxplus).1 = 4 := by
  refine ⟨?_, by decide⟩
  unfold palma_eigenvalue
  rw [if_neg (by simp [hsq]), karpMaxCode_maxplus]

/-- Witness for `c4_karp_rule` at scenario C's 3-cycle. -/
theorem c4_karp_rule_witness :
    palma_eigenvalue matC .maxplus = (karpAmended matC, .success)
    ∧ (palma_eigenvalue matC .maxplus).1 = 4 :=
  c4_karp_rule matC rfl

end Palma

namespace Palma

/-! ### Claim C5: the boot-schedule scenario B -/

/-- Claim C5: on the 6-task MaxPlus scheduler of scenario B (constraints
A[1,0]=10, A[2,1]=20, A[3,1]=20, A[4,1]=20, A[5,2]=15, A[5,3]=25, A[5,4]=30,
ready time 0 for task 0), `palma_scheduler_solve` with the default budget of
`n_tasks = 6` iterations converges — the convergence branch returns after 4
iterations — and leaves the state `x = [0, 10, 30, 30, 30, 60]`, which is a
fixed point of the iteration `x[i] ← (A⊗prev)[i] ⊕ b[i] ⊕ prev[i]`. -/
theorem c5_scheduler_boot :
    palma_scheduler_solve schedB 0 = (4, [0, 10, 30, 30, 30, 60], true)
    ∧ schedStep schedB [0, 10, 30, 30, 30, 60] = [0, 10, 30, 30, 30, 60] := by
  constructor
  · decide
  · decide

/-! ### Claim C7: the converged eigenvector is a tropical eigenvector -/

theorem eigLoop_success (A : palma_matrix_t) (s : SemiringTag) (lam : Int) :
    ∀ (fuel : Nat) (x v : List Int),
      eigLoop A s lam fuel x = (.success, v) → eigNormStep A s lam v = v := by
  intro fuel
  induction fuel with
  | zero =>
      intro x v h
      simp only [eigLoop, Prod.mk.injEq] at h
      exact absurd h.1 (by intro hh; cases hh)
  | succ fuel ih =>
      intro x v h
      simp only [eigLoop] at h
      by_cases hy : eigNormStep A s lam x = x
      · rw [if_pos hy] at h
        have hv : v = eigNormStep A s lam x := (Prod.mk.injEq _ _ _ _ ▸ h).2.symm
        rw [hv, hy, hy]
      · rw [if_neg hy] at h
        exact ih _ v h

end Palma

namespace Palma

/-- Claim C7: if `palma_eigenvector` returns `PALMA_SUCCESS` on a square
MaxPlus matrix, producing eigenvector `v` and eigenvalue `λ`, then for every
index `i` with `v[i] ≠ ε`, `matvec(A, v)[i] = v[i] + λ`: the converged iterate
satisfies the tropical eigenvector equation on its non-ε entries. -/
theorem c7_eigenvector_equation (A : palma_matrix_t) (max_iter : Nat)
    (v : List Int) (lam : Int)
    (h : palma_eigenvector A .maxplus max_iter = (.success, v, lam)) :
    ∀ i, i < A.rows → v.getD i 0 ≠ palma_zero .maxplus →
      (palma_matvec A v .maxplus).getD i 0 = v.getD i 0 + lam := by
  have hfix : eigNormStep A .maxplus lam v = v := by
    unfold palma_eigenvector at h
    by_cases hsq : A.rows ≠ A.cols
    · rw [if_pos hsq] at h
      simp only [Prod.mk.injEq] at h
      exact absurd h.1 (by intro hh; cases hh)
    · rw [if_neg hsq] at h
      by_cases hlam : (palma_eigenvalue A .maxplus).1 = NEG_INF
      · rw [if_pos hlam] at h
        simp only [Prod.mk.injEq] at h
        exact absurd h.1 (by intro hh; cases hh)
      · rw [if_neg hlam] at h
        simp only [Prod.mk.injEq] at h
        obtain ⟨h1, h2, h3⟩ := h
        subst h3
        have hpair :
            eigLoop A .maxplus (palma_eigenvalue A .maxplus).1
              (if max_iter = 0 then 1000 else max_iter)
              (List.replicate A.rows (palma_one .maxplus)) = (.success, v) := by
          rw [Prod.ext_iff]
          exact ⟨h1, h2⟩
        exact eigLoop_success A .maxplus (palma_eigenvalue A .maxplus).1 _ _ v hpair
  intro i hi hvi
  rw [eigNormStep, if_pos (Or.inl rfl)] at hfix
  have hwlen : (palma_matvec A v .maxplus).length = A.rows := by
    simp [palma_matvec]
  have hiw : i < (palma_matvec A v .maxplus).length := by omega
  have hvient : v.getD i 0 =
      (if (palma_matvec A v .maxplus)[i] ≠ palma_zero .maxplus then
        (palma_matvec A v .maxplus)[i] - lam
      else (palma_matvec A v .maxplus)[i]) := by
    conv_lhs => rw [← hfix]
    rw [List.getD_eq_getElem _ _ (by simpa using hiw), List.getElem_map]
  rw [List.getD_eq_getElem _ _ hiw]
  by_cases hz : (palma_matvec A v .maxplus)[i] = palma_zero .maxplus
  · rw [if_neg (not_not_intro hz)] at hvient
    exact absurd (hvient.trans hz) hvi
  · rw [if_pos hz] at hvient
    rw [hvient]
    omega

/-- Witness for `c7_eigenvector_equation`: the 1×1 MaxPlus matrix `[[5]]`,
where the solver converges to `v = [0]` with `λ = 5`. -/
theorem c7_eigenvector_equation_witness :
    (palma_matvec matE1 [0] .maxplus).getD 0 0 = ([0] : List Int).getD 0 0 + 5 :=
  c7_eigenvector_equation matE1 10 [0] 5 (by decide) 0 (by decide) (by decide)

end Palma

namespace Palma

/-! ### Lemmas: the sparse point update preserves the CSR invariants (C8) -/

theorem scanPos_fuel (col_idx : List Nat) (col : Nat) :
    ∀ (n pos e : Nat), e - pos ≤ n →
      pos ≤ scanPos col_idx col pos e
      ∧ (pos ≤ e → scanPos col_idx col pos e ≤ e)
      ∧ (∀ i, pos ≤ i → i < scanPos col_idx col pos e → col_idx.getD i 0 < col)
      ∧ (scanPos col_idx col pos e < e →
          ¬ col_idx.getD (scanPos col_idx col pos e) 0 < col) := by
  intro n
  induction n with
  | zero =>
      intro pos e h
      rw [scanPos, if_neg (by omega)]
      exact ⟨le_refl pos, fun hp => hp, fun i h1 h2 => absurd h2 (by omega),
        fun hlt => absurd hlt (by omega)⟩
  | succ n ih =>
      intro pos e h
      rw [scanPos]
      by_cases hc : pos < e ∧ col_idx.getD pos 0 < col
      · rw [if_pos hc]
        obtain ⟨ih1, ih2, ih3, ih4⟩ := ih (pos + 1) e (by omega)
        refine ⟨by omega, fun _ => ih2 (by omega), ?_, ih4⟩
        intro i h1 h2
        rcases Nat.eq_or_lt_of_le h1 with rfl | h1'
        · exact hc.2
        · exact ih3 i (by omega) h2
      · rw [if_neg hc]
        exact ⟨le_refl pos, fun hp => hp, fun i h1 h2 => absurd h2 (by omega),
          fun hlt => fun hcol => hc ⟨hlt, hcol⟩⟩

theorem scanPos_ge (col_idx : List Nat) (col pos e : Nat) :
    pos ≤ scanPos col_idx col pos e :=
  (scanPos_fuel col_idx col (e - pos) pos e (le_refl _)).1

theorem scanPos_le (col_idx : List Nat) (col pos e : Nat) (h : pos ≤ e) :
    scanPos col_idx col pos e ≤ e :=
  (scanPos_fuel col_idx col (e - pos) pos e (le_refl _)).2.1 h

theorem scanPos_before (col_idx : List Nat) (col pos e i : Nat)
    (h1 : pos ≤ i) (h2 : i < scanPos col_idx col pos e) :
    col_idx.getD i 0 < col :=
  (scanPos_fuel col_idx col (e - pos) pos e (le_refl _)).2.2.1 i h1 h2

theorem scanPos_stop (col_idx : List Nat) (col pos e : Nat)
    (h : scanPos col_idx col pos e < e) :
    ¬ col_idx.getD (scanPos col_idx col pos e) 0 < col :=
  (scanPos_fuel col_idx col (e - pos) pos e (le_refl _)).2.2.2 h

theorem bumpFrom_length : ∀ (l : List Nat) (k : Nat), (bumpFrom l k).length = l.length := by
  intro l
  induction l with
  | nil => intro k; rfl
  | cons x xs ih =>
      intro k
      cases k with
      | zero => simp [bumpFrom, ih]
      | succ k => simp [bumpFrom, ih]

theorem bumpFrom_getD : ∀ (l : List Nat) (k i : Nat),
    (bumpFrom l k).getD i 0 =
      if k ≤ i ∧ i < l.length then l.getD i 0 + 1 else l.getD i 0 := by
  intro l
  induction l with
  | nil =>
      intro k i
      simp [bumpFrom]
  | cons x xs ih =>
      intro k i
      cases k with
      | zero =>
          cases i with
          | zero => simp [bumpFrom]
          | succ i =>
              simp only [bumpFrom, List.getD_cons_succ, ih 0 i, List.length_cons]
              by_cases h : i < xs.length
              · rw [if_pos ⟨Nat.zero_le i, h⟩, if_pos ⟨Nat.zero_le (i + 1), by omega⟩]
              · rw [if_neg (by omega), if_neg (by omega)]
      | succ k =>
          cases i with
          | zero =>
              simp only [bumpFrom, List.getD_cons_zero]
              rw [if_neg (by omega)]
          | succ i =>
              simp only [bumpFrom, List.getD_cons_succ, ih k i, List.length_cons]
              by_cases h : k ≤ i ∧ i < xs.length
              · rw [if_pos h, if_pos (by omega)]
              · rw [if_neg h, if_neg (by omega)]

theorem insertAt_length {α : Type} (l : List α) (i : Nat) (x : α) (h : i ≤ l.length) :
    (insertAt l i x).length = l.length + 1 := by
  simp [insertAt]
  omega

theorem insertAt_take {α : Type} (l : List α) (i : Nat) (x : α) (m : Nat)
    (him : m ≤ i) (hil : i ≤ l.length) :
    (insertAt l i x).take m = l.take m := by
  unfold insertAt
  rw [List.take_append_of_le_length (by simp; omega), List.take_take,
    Nat.min_eq_left him]

theorem insertAt_take_mid {α : Type} (l : List α) (i : Nat) (x : α) (m : Nat)
    (him : i ≤ m) (hil : i ≤ l.length) :
    (insertAt l i x).take (m + 1) = insertAt (l.take m) i x := by
  unfold insertAt
  have hlen : (l.take i).length = i := by simp; omega
  rw [List.take_append_eq_append_take, hlen]
  have hm1 : m + 1 - i = (m - i) + 1 := by omega
  rw [hm1, List.take_succ_cons]
  rw [List.take_take, Nat.min_eq_right (by omega)]
  rw [List.take_take, Nat.min_eq_left him]
  rw [List.drop_take]

theorem insertAt_drop {α : Type} (l : List α) (i : Nat) (x : α) (j : Nat)
    (hij : i ≤ j) (hil : i ≤ l.length) :
    (insertAt l i x).drop (j + 1) = l.drop j := by
  unfold insertAt
  have hlen : (l.take i).length = i := by simp; omega
  rw [List.drop_append_eq_append_drop, hlen,
    List.drop_eq_nil_of_le (by rw [hlen]; omega), List.nil_append]
  have hj1 : j + 1 - i = (j - i) + 1 := by omega
  rw [hj1, List.drop_succ_cons, List.drop_drop]
  congr 1
  omega

end Palma

namespace Palma

theorem rowStart_chain (sp : palma_sparse_t)
    (hmono : ∀ r, r < sp.rows → rowStart sp r ≤ rowStart sp (r + 1)) :
    ∀ a b : Nat, a ≤ b → b ≤ sp.rows → rowStart sp a ≤ rowStart sp b := by
  intro a b
  induction b with
  | zero =>
      intro hab _
      have : a = 0 := by omega
      subst this
      exact le_refl _
  | succ b ih =>
      intro hab hbr
      rcases Nat.eq_or_lt_of_le hab with rfl | h
      · exact le_refl _
      · exact le_trans (ih (by omega) (by omega)) (hmono b (by omega))

/-- Claim C8: after every successful `palma_sparse_set` — an update of an
existing entry or an insertion of a new one, including insertion of an ε
value — on a valid CSR matrix, the CSR invariants hold: `row_ptr[0] = 0`,
`row_ptr[rows] = nnz`, and the stored column indices are strictly ascending
within each row. -/
theorem c8_sparse_set_invariants (sp : palma_sparse_t) (row col : Nat) (val : Int)
    (hv : csrValid sp) (sp' : palma_sparse_t)
    (hset : palma_sparse_set sp row col val = .ok sp') :
    rowStart sp' 0 = 0
    ∧ rowStart sp' sp'.rows = sp'.nnz
    ∧ ∀ r, r < sp'.rows → List.Pairwise (· < ·) (rowSlice sp' r) := by
  obtain ⟨hlen, hvl, hcl, h0, hN, hmono, hsort, hbnd⟩ := hv
  by_cases hb : sp.rows ≤ row ∨ sp.cols ≤ col
  · simp only [palma_sparse_set, if_pos hb] at hset
    simp at hset
  · simp only [palma_sparse_set, if_neg hb] at hset
    have hrw : ∀ r : Nat, sp.row_ptr.getD r 0 = rowStart sp r := fun _ => rfl
    simp only [hrw] at hset
    have hae : rowStart sp row ≤ rowStart sp (row + 1) := hmono row (by omega)
    have heN : rowStart sp (row + 1) ≤ sp.nnz := by
      have := rowStart_chain sp hmono (row + 1) sp.rows (by omega) (le_refl _)
      omega
    have hpa : rowStart sp row ≤
        scanPos sp.col_idx col (rowStart sp row) (rowStart sp (row + 1)) :=
      scanPos_ge _ _ _ _
    have hpe : scanPos sp.col_idx col (rowStart sp row) (rowStart sp (row + 1)) ≤
        rowStart sp (row + 1) :=
      scanPos_le _ _ _ _ hae
    have hpn : scanPos sp.col_idx col (rowStart sp row) (rowStart sp (row + 1)) ≤
        sp.col_idx.length := by
      rw [hcl]; omega
    by_cases hupd :
        scanPos sp.col_idx col (rowStart sp row) (rowStart sp (row + 1)) <
          rowStart sp (row + 1) ∧
        sp.col_idx.getD
          (scanPos sp.col_idx col (rowStart sp row) (rowStart sp (row + 1))) 0 = col
    · rw [if_pos hupd] at hset
      injection hset with hset
      subst hset
      exact ⟨h0, hN, hsort⟩
    · rw [if_neg hupd] at hset
      injection hset with hset
      subst hset
      have hstart' : ∀ r, r ≤ sp.rows →
          rowStart { sp with
            values := insertAt sp.values
              (scanPos sp.col_idx col (rowStart sp row) (rowStart sp (row + 1))) val
            col_idx := insertAt sp.col_idx
              (scanPos sp.col_idx col (rowStart sp row) (rowStart sp (row + 1))) col
            row_ptr := bumpFrom sp.row_ptr (row + 1)
            nnz := sp.nnz + 1 } r =
          rowStart sp r + (if row + 1 ≤ r then 1 else 0) := by
        intro r hr
        show (bumpFrom sp.row_ptr (row + 1)).getD r 0 = _
        rw [bumpFrom_getD]
        by_cases h : row + 1 ≤ r
        · rw [if_pos ⟨h, by rw [hlen]; omega⟩, if_pos h]
          rfl
        · rw [if_neg (by tauto), if_neg h]
          rfl
      refine ⟨?_, ?_, ?_⟩
      · rw [hstart' 0 (by omega), if_neg (by omega)]
        omega
      · rw [hstart' sp.rows (le_refl _), if_pos (by omega)]
        show rowStart sp sp.rows + 1 = sp.nnz + 1
        omega
      · intro r hr
        have hr' : r < sp.rows := hr
        show List.Pairwise (· < ·)
          (((insertAt sp.col_idx
              (scanPos sp.col_idx col (rowStart sp row) (rowStart sp (row + 1))) col).take
            (rowStart { sp with
              values := insertAt sp.values
                (scanPos sp.col_idx col (rowStart sp row) (rowStart sp (row + 1))) val
              col_idx := insertAt sp.col_idx
                (scanPos sp.col_idx col (rowStart sp row) (rowStart sp (row + 1))) col
              row_ptr := bumpFrom sp.row_ptr (row + 1)
              nnz := sp.nnz + 1 } (r + 1))).drop
            (rowStart { sp with
              values := insertAt sp.values
                (scanPos sp.col_idx col (rowStart sp row) (rowStart sp (row + 1))) val
              col_idx := insertAt sp.col_idx
                (scanPos sp.col_idx col (rowStart sp row) (rowStart sp (row + 1))) col
              row_ptr := bumpFrom sp.row_ptr (row + 1)
              nnz := sp.nnz + 1 } r))
        rw [hstart' r (by omega), hstart' (r + 1) (by omega)]
        rcases lt_trichotomy r row with hlt | hmid | hgt
        · rw [if_neg (by omega), if_neg (by omega)]
          simp only [Nat.add_zero]
          have hre : rowStart sp (r + 1) ≤ rowStart sp row :=
            rowStart_chain sp hmono (r + 1) row (by omega) (by omega)
          rw [insertAt_take _ _ _ _ (by omega) hpn]
          exact hsort r (by omega)
        · rw [hmid, if_neg (by omega), if_pos (by omega)]
          simp only [Nat.add_zero]
          rw [insertAt_take_mid _ _ _ _ hpe hpn]
          unfold insertAt
          rw [List.take_take, Nat.min_eq_left hpe]
          rw [List.drop_append_of_le_length (by simp; omega)]
          have hsplit : rowSlice sp row =
              (sp.col_idx.take
                  (scanPos sp.col_idx col (rowStart sp row) (rowStart sp (row + 1)))).drop
                (rowStart sp row) ++
              (sp.col_idx.take (rowStart sp (row + 1))).drop
                (scanPos sp.col_idx col (rowStart sp row) (rowStart sp (row + 1))) := by
            unfold rowSlice
            conv_lhs => rw [← List.take_append_drop
              (scanPos sp.col_idx col (rowStart sp row) (rowStart sp (row + 1)))
              (sp.col_idx.take (rowStart sp (row + 1)))]
            rw [List.take_take, Nat.min_eq_left hpe]
            rw [List.drop_append_of_le_length (by simp; omega)]
          have hpw := hsort row (by omega)
          rw [hsplit] at hpw
          obtain ⟨pA, pB, pAB⟩ := List.pairwise_append.mp hpw
          have hAcol : ∀ y ∈ (sp.col_idx.take
              (scanPos sp.col_idx col (rowStart sp row) (rowStart sp (row + 1)))).drop
              (rowStart sp row), y < col := by
            intro y hy
            obtain ⟨t, ht, hget⟩ := List.mem_iff_getElem.mp hy
            have htlen : rowStart sp row + t <
                scanPos sp.col_idx col (rowStart sp row) (rowStart sp (row + 1)) := by
              simp only [List.length_drop, List.length_take] at ht
              omega
            have hidx : rowStart sp row + t < sp.col_idx.length := by
              rw [hcl]; omega
            have := scanPos_before sp.col_idx col (rowStart sp row)
              (rowStart sp (row + 1)) (rowStart sp row + t) (by omega) htlen
            rw [List.getD_eq_getElem _ _ hidx] at this
            rw [List.getElem_drop, List.getElem_take] at hget
            rw [← hget]
            exact this
          have hBcol : ∀ y ∈ (sp.col_idx.take (rowStart sp (row + 1))).drop
              (scanPos sp.col_idx col (rowStart sp row) (rowStart sp (row + 1))), col < y := by
            by_cases hposE :
                scanPos sp.col_idx col (rowStart sp row) (rowStart sp (row + 1)) <
                  rowStart sp (row + 1)
            · have hposC :
                  scanPos sp.col_idx col (rowStart sp row) (rowStart sp (row + 1)) <
                    (sp.col_idx.take (rowStart sp (row + 1))).length := by
                simp only [List.length_take]
                rw [hcl]
                omega
              have hposN : scanPos sp.col_idx col (rowStart sp row)
                  (rowStart sp (row + 1)) < sp.col_idx.length := by
                rw [hcl]
                omega
              have hB : (sp.col_idx.take (rowStart sp (row + 1))).drop
                  (scanPos sp.col_idx col (rowStart sp row) (rowStart sp (row + 1))) =
                  (sp.col_idx.take (rowStart sp (row + 1))).getD
                      (scanPos sp.col_idx col (rowStart sp row) (rowStart sp (row + 1))) 0 ::
                    (sp.col_idx.take (rowStart sp (row + 1))).drop
                      (scanPos sp.col_idx col (rowStart sp row)
                        (rowStart sp (row + 1)) + 1) := by
                rw [List.getD_eq_getElem _ _ hposC]
                exact List.drop_eq_getElem_cons hposC
              have hhead : (sp.col_idx.take (rowStart sp (row + 1))).getD
                  (scanPos sp.col_idx col (rowStart sp row) (rowStart sp (row + 1))) 0 =
                  sp.col_idx.getD
                    (scanPos sp.col_idx col (rowStart sp row) (rowStart sp (row + 1))) 0 := by
                rw [List.getD_eq_getElem _ _ hposC, List.getD_eq_getElem _ _ hposN]
                exact List.getElem_take _
              have hcollt : col < sp.col_idx.getD
                  (scanPos sp.col_idx col (rowStart sp row) (rowStart sp (row + 1))) 0 := by
                have hstop := scanPos_stop sp.col_idx col (rowStart sp row)
                  (rowStart sp (row + 1)) hposE
                have hne : sp.col_idx.getD (scanPos sp.col_idx col (rowStart sp row)
                    (rowStart sp (row + 1))) 0 ≠ col := by
                  intro hcontra
                  exact hupd ⟨hposE, hcontra⟩
                omega
              intro y hy
              rw [hB] at hy pB
              rcases List.mem_cons.mp hy with rfl | hyrest
              · rw [hhead] at *
                exact hcollt
              · have := (List.pairwise_cons.mp pB).1 y hyrest
                rw [hhead] at this
                omega
            · intro y hy
              have : (sp.col_idx.take (rowStart sp (row + 1))).length ≤
                  scanPos sp.col_idx col (rowStart sp row) (rowStart sp (row + 1)) := by
                simp only [List.length_take]
                omega
              rw [List.drop_eq_nil_of_le this] at hy
              cases hy
          refine List.pairwise_append.mpr ⟨pA, List.pairwise_cons.mpr ⟨hBcol, pB⟩, ?_⟩
          intro x hx y hy
          rcases List.mem_cons.mp hy with rfl | hyB
          · exact hAcol x hx
          · exact lt_trans (hAcol x hx) (hBcol y hyB)
        · rw [if_pos (by omega), if_pos (by omega)]
          have hp1 : scanPos sp.col_idx col (rowStart sp row) (rowStart sp (row + 1)) ≤
              rowStart sp (r + 1) := by
            have := rowStart_chain sp hmono (row + 1) (r + 1) (by omega) (by omega)
            omega
          have hp0 : scanPos sp.col_idx col (rowStart sp row) (rowStart sp (row + 1)) ≤
              rowStart sp r := by
            have := rowStart_chain sp hmono (row + 1) r (by omega) (by omega)
            omega
          rw [insertAt_take_mid _ _ _ _ hp1 hpn]
          rw [insertAt_drop _ _ _ _ hp0 (by simp; constructor <;> omega)]
          exact hsort r (by omega)

end Palma

namespace Palma

/-- Witness for `c8_sparse_set_invariants`: inserting value 5 at (0, 2) into a
valid 2×3 MaxPlus CSR matrix holding entries (0,0)=7 and (1,1)=9. -/
theorem c8_sparse_set_invariants_witness :
    rowStart ⟨2, 3, 3, .maxplus, [7, 5, 9], [0, 2, 1], [0, 2, 3]⟩ 0 = 0
    ∧ rowStart ⟨2, 3, 3, .maxplus, [7, 5, 9], [0, 2, 1], [0, 2, 3]⟩
        (palma_sparse_t.rows ⟨2, 3, 3, .maxplus, [7, 5, 9], [0, 2, 1], [0, 2, 3]⟩) =
      palma_sparse_t.nnz ⟨2, 3, 3, .maxplus, [7, 5, 9], [0, 2, 1], [0, 2, 3]⟩
    ∧ ∀ r, r < palma_sparse_t.rows ⟨2, 3, 3, .maxplus, [7, 5, 9], [0, 2, 1], [0, 2, 3]⟩ →
        List.Pairwise (· < ·)
          (rowSlice ⟨2, 3, 3, .maxplus, [7, 5, 9], [0, 2, 1], [0, 2, 3]⟩ r) :=
  c8_sparse_set_invariants ⟨2, 3, 2, .maxplus, [7, 9], [0, 1], [0, 1, 2]⟩ 0 2 5
    (by refine ⟨rfl, rfl, rfl, rfl, rfl, ?_, ?_, ?_⟩ <;> decide)
    ⟨2, 3, 3, .maxplus, [7, 5, 9], [0, 2, 1], [0, 2, 3]⟩
    (by simp [palma_sparse_set, scanPos, insertAt, bumpFrom])

end Palma

namespace Palma

/-! ### Lemmas: characterising `palma_sparse_to_dense` (C9) -/

theorem foldl_set_row_other {α : Type} (r : Nat) (c : α → Nat) (w : α → Int) :
    ∀ (l : List α) (d : palma_matrix_t) (i j : Nat), i ≠ r →
      (l.foldl (fun d x => palma_matrix_set d r (c x) (w x)) d).data i j = d.data i j := by
  intro l
  induction l with
  | nil => intro d i j _; rfl
  | cons x rest ih =>
      intro d i j hir
      simp only [List.foldl_cons]
      rw [ih _ i j hir]
      simp [palma_matrix_set, hir]

theorem setRow_none (i : Nat) :
    ∀ (l : List (Nat × Int)) (d : palma_matrix_t) (j : Nat), (∀ p ∈ l, p.1 ≠ j) →
      (l.foldl (fun d p => palma_matrix_set d i p.1 p.2) d).data i j = d.data i j := by
  intro l
  induction l with
  | nil => intro d j _; rfl
  | cons p rest ih =>
      intro d j hne
      simp only [List.foldl_cons]
      rw [ih _ j (fun q hq => hne q (List.mem_cons_of_mem p hq))]
      have hcond : ¬(i = i ∧ j = p.1) :=
        fun h => hne p (List.mem_cons_self p rest) h.2.symm
      show (if i = i ∧ j = p.1 then p.2 else d.data i j) = d.data i j
      rw [if_neg hcond]

theorem setRow_find (i : Nat) :
    ∀ (l : List (Nat × Int)), List.Pairwise (fun p q => p.1 ≠ q.1) l →
      ∀ (d : palma_matrix_t) (j : Nat),
        (l.foldl (fun d p => palma_matrix_set d i p.1 p.2) d).data i j =
          match l.find? (fun p => p.1 == j) with
          | some p => p.2
          | none => d.data i j := by
  intro l
  induction l with
  | nil => intro _ d j; rfl
  | cons p rest ih =>
      intro hnd d j
      obtain ⟨hp, hrest⟩ := List.pairwise_cons.mp hnd
      simp only [List.foldl_cons, List.find?_cons]
      by_cases hpj : p.1 = j
      · have hb : (p.1 == j) = true := by simp [hpj]
        rw [hb]
        rw [setRow_none i rest _ j (fun q hq => by rw [← hpj]; exact (hp q hq).symm)]
        show (if i = i ∧ j = p.1 then p.2 else d.data i j) = p.2
        rw [if_pos ⟨rfl, hpj.symm⟩]
      · have hb : (p.1 == j) = false := by simp [hpj]
        rw [hb, ih hrest]
        have hd : (palma_matrix_set d i p.1 p.2).data i j = d.data i j := by
          show (if i = i ∧ j = p.1 then p.2 else d.data i j) = d.data i j
          rw [if_neg (fun h => hpj h.2.symm)]
        cases hfind : rest.find? (fun q => q.1 == j) with
        | some q => rfl
        | none => exact hd

theorem range'_map_getD (C : List Nat) (V : List Int) :
    ∀ (n a : Nat), a + n ≤ (C.zip V).length →
      (List.range' a n).map (fun k => (C.getD k 0, V.getD k 0)) =
        ((C.zip V).drop a).take n := by
  intro n
  induction n with
  | zero => intro a _; simp
  | succ n ih =>
      intro a h
      have hlen : (C.zip V).length = min C.length V.length := List.length_zip C V
      have ha : a < (C.zip V).length := by omega
      rw [List.range'_succ, List.map_cons, List.drop_eq_getElem_cons ha,
        List.take_succ_cons, ih (a + 1) (by omega)]
      congr 1
      rw [List.getElem_zip]
      have hca : a < C.length := by
        simp only [List.length_zip] at ha
        omega
      have hva : a < V.length := by
        simp only [List.length_zip] at ha
        omega
      rw [List.getD_eq_getElem _ _ hca, List.getD_eq_getElem _ _ hva]

theorem writeRowK_eq (sp : palma_sparse_t) (i : Nat) (d : palma_matrix_t)
    (hae : rowStart sp i ≤ rowStart sp (i + 1))
    (he : rowStart sp (i + 1) ≤ (sp.col_idx.zip sp.values).length) :
    writeRowK sp i d =
      (rowPairs sp i).foldl (fun d p => palma_matrix_set d i p.1 p.2) d := by
  unfold writeRowK rowPairs
  rw [List.drop_take,
    ← range'_map_getD sp.col_idx sp.values _ (rowStart sp i) (by omega),
    List.foldl_map]

end Palma

namespace Palma

theorem writeRowK_other (sp : palma_sparse_t) (r : Nat) (d : palma_matrix_t)
    (i j : Nat) (hir : i ≠ r) :
    (writeRowK sp r d).data i j = d.data i j := by
  unfold writeRowK
  exact foldl_set_row_other r (fun k => sp.col_idx.getD k 0)
    (fun k => sp.values.getD k 0) _ d i j hir

theorem to_dense_fold_preserve (sp : palma_sparse_t) :
    ∀ (L : List Nat) (d : palma_matrix_t) (i j : Nat), i ∉ L →
      ((L.foldl (fun d r => writeRowK sp r d) d)).data i j = d.data i j := by
  intro L
  induction L with
  | nil => intro d i j _; rfl
  | cons r rest ih =>
      intro d i j hi
      simp only [List.foldl_cons]
      rw [ih _ i j (fun h => hi (List.mem_cons_of_mem r h)),
        writeRowK_other sp r d i j (fun h => hi (h ▸ List.mem_cons_self r rest))]

theorem to_dense_fold_char (sp : palma_sparse_t) (i : Nat)
    (hae : rowStart sp i ≤ rowStart sp (i + 1))
    (he : rowStart sp (i + 1) ≤ (sp.col_idx.zip sp.values).length)
    (hkey : List.Pairwise (fun p q : Nat × Int => p.1 ≠ q.1) (rowPairs sp i)) :
    ∀ (L : List Nat), L.Nodup → i ∈ L → ∀ (d : palma_matrix_t) (j : Nat),
      ((L.foldl (fun d r => writeRowK sp r d) d)).data i j =
        match (rowPairs sp i).find? (fun p => p.1 == j) with
        | some p => p.2
        | none => d.data i j := by
  intro L
  induction L with
  | nil => intro _ hmem; cases hmem
  | cons r rest ih =>
      intro hnd hmem d j
      obtain ⟨hnotmem, hndrest⟩ := List.pairwise_cons.mp hnd
      simp only [List.foldl_cons]
      rcases List.mem_cons.mp hmem with rfl | hmemrest
      · have hnot : i ∉ rest := fun h => hnotmem i h rfl
        rw [to_dense_fold_preserve sp rest _ i j hnot,
          writeRowK_eq sp i d hae he, setRow_find i _ hkey]
      · rw [ih hndrest hmemrest,
          writeRowK_other sp r d i j (fun h => hnotmem i hmemrest h.symm)]

theorem to_dense_rows (sp : palma_sparse_t) :
    (palma_sparse_to_dense sp).rows = sp.rows ∧
    (palma_sparse_to_dense sp).cols = sp.cols := by
  unfold palma_sparse_to_dense
  have haux : ∀ (L : List Nat) (d : palma_matrix_t),
      (L.foldl (fun d r => writeRowK sp r d) d).rows = d.rows ∧
      (L.foldl (fun d r => writeRowK sp r d) d).cols = d.cols := by
    intro L
    induction L with
    | nil => intro d; exact ⟨rfl, rfl⟩
    | cons r rest ih =>
        intro d
        simp only [List.foldl_cons]
        obtain ⟨h1, h2⟩ := ih (writeRowK sp r d)
        have hw : ∀ d' : palma_matrix_t, (writeRowK sp r d').rows = d'.rows ∧
            (writeRowK sp r d').cols = d'.cols := by
          intro d'
          unfold writeRowK
          generalize List.range' (rowStart sp r) (rowStart sp (r + 1) - rowStart sp r) = ks
          induction ks generalizing d' with
          | nil => exact ⟨rfl, rfl⟩
          | cons k krest ihk =>
              simp only [List.foldl_cons]
              exact ihk _
        exact ⟨h1.trans (hw d).1, h2.trans (hw d).2⟩
  exact haux (List.range sp.rows) _

/-- The characterisation of `palma_sparse_to_dense`: element (i, j) is the
value stored for column `j` of row `i`, or ε when absent. -/
theorem to_dense_data (sp : palma_sparse_t) (i : Nat) (hi : i < sp.rows)
    (hae : rowStart sp i ≤ rowStart sp (i + 1))
    (he : rowStart sp (i + 1) ≤ (sp.col_idx.zip sp.values).length)
    (hkey : List.Pairwise (fun p q : Nat × Int => p.1 ≠ q.1) (rowPairs sp i)) (j : Nat) :
    (palma_sparse_to_dense sp).data i j =
      match (rowPairs sp i).find? (fun p => p.1 == j) with
      | some p => p.2
      | none => palma_zero sp.semiring := by
  unfold palma_sparse_to_dense
  rw [to_dense_fold_char sp i hae he hkey (List.range sp.rows) (List.nodup_range _)
    (List.mem_range.mpr hi)]
  rfl

end Palma

namespace Palma

/-! ### Lemmas: `palma_sparse_from_dense` structure (C9) -/

theorem find?_filterMap_key (g : Nat → Option (Nat × Int))
    (hg : ∀ x p, g x = some p → p.1 = x) (j : Nat) :
    ∀ l : List Nat,
      (l.filterMap g).find? (fun p => p.1 == j) = if j ∈ l then g j else none := by
  intro l
  induction l with
  | nil => simp
  | cons x rest ih =>
      cases hgx : g x with
      | none =>
          rw [List.filterMap_cons_none hgx, ih]
          by_cases hxj : j = x
          · subst hxj
            simp [hgx]
          · simp [List.mem_cons, hxj]
      | some p =>
          rw [List.filterMap_cons_some hgx]
          have hpx : p.1 = x := hg x p hgx
          by_cases hxj : x = j
          · subst hxj
            have hb : (p.1 == x) = true := by simp [hpx]
            simp [List.find?_cons, hb, List.mem_cons, hgx]
          · have hb : (p.1 == j) = false := by
              simp only [beq_eq_false_iff_ne, ne_eq, hpx]
              exact hxj
            rw [List.find?_cons, hb, ih]
            have hne : ¬ j = x := fun h => hxj h.symm
            simp [List.mem_cons, hne]
  
theorem flatten_slice {α : Type} :
    ∀ (L : List (List α)) (i : Nat) (hi : i < L.length),
      ((L.flatten).take (((L.take (i + 1)).map List.length).sum)).drop
        (((L.take i).map List.length).sum) = L[i] := by
  intro L
  induction L with
  | nil => intro i hi; simp at hi
  | cons x Ls ih =>
      intro i hi
      cases i with
      | zero =>
          simp only [List.take_zero, List.map_nil, List.sum_nil, List.drop_zero,
            List.take_succ_cons, List.take_zero, List.map_cons, List.sum_cons,
            List.sum_nil, Nat.add_zero, List.flatten_cons]
          rw [List.take_left]
          rfl
      | succ i =>
          simp only [List.take_succ_cons, List.map_cons, List.sum_cons,
            List.flatten_cons]
          rw [List.take_add, List.take_left, List.drop_left,
            List.drop_append_eq_append_drop,
            List.drop_eq_nil_of_le (Nat.le_add_right _ _), List.nil_append,
            Nat.add_sub_cancel_left, List.getElem_cons_succ]
          exact ih i (by simp at hi; omega)

end Palma

namespace Palma

theorem sum_take_succ {α : Type} (L : List (List α)) (i : Nat) (hi : i < L.length) :
    ((L.take (i + 1)).map List.length).sum =
      ((L.take i).map List.length).sum + (L[i]).length := by
  rw [List.map_take, List.map_take, List.sum_take_succ _ i (by simp [hi]),
    List.getElem_map]

theorem sum_take_le {α : Type} (L : List (List α)) (i : Nat) :
    ((L.take i).map List.length).sum ≤ (L.map List.length).sum := by
  conv_rhs => rw [← List.take_append_drop i L]
  rw [List.map_append, List.sum_append]
  exact Nat.le_add_right _ _

theorem zip_fst_snd {α β : Type} (l : List (α × β)) :
    (l.map Prod.fst).zip (l.map Prod.snd) = l := by
  rw [List.zip_map']
  simp

theorem from_dense_rowStart (M : palma_matrix_t) (s : SemiringTag) (r : Nat)
    (hr : r < M.rows + 1) :
    rowStart (palma_sparse_from_dense M s) r =
      ((((List.range M.rows).map (denseRowEntries M s)).take r).map List.length).sum := by
  unfold rowStart
  simp only [palma_sparse_from_dense]
  rw [List.getD_eq_getElem _ _ (by simp [hr]), List.getElem_map, List.getElem_range]

theorem from_dense_zip (M : palma_matrix_t) (s : SemiringTag) :
    (palma_sparse_from_dense M s).col_idx.zip (palma_sparse_from_dense M s).values =
      ((List.range M.rows).map (denseRowEntries M s)).flatten := by
  simp only [palma_sparse_from_dense]
  exact zip_fst_snd _

theorem rowPairs_from_dense (M : palma_matrix_t) (s : SemiringTag) (i : Nat)
    (hi : i < M.rows) :
    rowPairs (palma_sparse_from_dense M s) i = denseRowEntries M s i := by
  unfold rowPairs
  rw [from_dense_zip, from_dense_rowStart _ _ _ (by omega),
    from_dense_rowStart _ _ _ (by omega),
    flatten_slice ((List.range M.rows).map (denseRowEntries M s)) i (by simp [hi]),
    List.getElem_map, List.getElem_range]

theorem denseRowEntries_key (M : palma_matrix_t) (s : SemiringTag) (i : Nat) :
    ∀ p ∈ denseRowEntries M s i,
      p.1 < M.cols ∧ p.2 = palma_matrix_get M i p.1 ∧ p.2 ≠ palma_zero s := by
  intro p hp
  obtain ⟨j, hj, hpj⟩ := List.mem_filterMap.mp hp
  by_cases h : palma_matrix_get M i j ≠ palma_zero s
  · rw [if_pos h] at hpj
    injection hpj with hpj
    subst hpj
    exact ⟨List.mem_range.mp hj, rfl, h⟩
  · rw [if_neg h] at hpj
    cases hpj

theorem denseRowEntries_sorted (M : palma_matrix_t) (s : SemiringTag) (i : Nat) :
    List.Pairwise (fun p q : Nat × Int => p.1 < q.1) (denseRowEntries M s i) := by
  unfold denseRowEntries
  rw [List.pairwise_filterMap]
  refine (List.pairwise_lt_range M.cols).imp ?_
  intro a b hab p hp q hq
  by_cases ha : palma_matrix_get M i a ≠ palma_zero s
  · rw [if_pos ha] at hp
    by_cases hb : palma_matrix_get M i b ≠ palma_zero s
    · rw [if_pos hb] at hq
      cases hp
      cases hq
      exact hab
    · rw [if_neg hb] at hq
      cases hq
  · rw [if_neg ha] at hp
    cases hp

/-- Round trip, direction 2: `to_dense(from_dense(M)) = M` element-wise. -/
theorem to_dense_from_dense (M : palma_matrix_t) (s : SemiringTag) (i j : Nat)
    (hi : i < M.rows) (hj : j < M.cols) :
    (palma_sparse_to_dense (palma_sparse_from_dense M s)).data i j = M.data i j := by
  have hae : rowStart (palma_sparse_from_dense M s) i ≤
      rowStart (palma_sparse_from_dense M s) (i + 1) := by
    rw [from_dense_rowStart _ _ _ (by omega), from_dense_rowStart _ _ _ (by omega),
      sum_take_succ _ i (by simp [hi])]
    omega
  have he : rowStart (palma_sparse_from_dense M s) (i + 1) ≤
      ((palma_sparse_from_dense M s).col_idx.zip
        (palma_sparse_from_dense M s).values).length := by
    rw [from_dense_zip, from_dense_rowStart _ _ _ (by omega), List.length_flatten]
    exact sum_take_le _ _
  have hkey : List.Pairwise (fun p q : Nat × Int => p.1 ≠ q.1)
      (rowPairs (palma_sparse_from_dense M s) i) := by
    rw [rowPairs_from_dense M s i hi]
    exact (denseRowEntries_sorted M s i).imp (fun h => Nat.ne_of_lt h)
  rw [to_dense_data _ i hi hae he hkey j, rowPairs_from_dense M s i hi]
  unfold denseRowEntries
  rw [find?_filterMap_key _ ?_ j (List.range M.cols)]
  · rw [if_pos (List.mem_range.mpr hj)]
    by_cases h : palma_matrix_get M i j ≠ palma_zero s
    · rw [if_pos h]
      rfl
    · rw [if_neg h]
      push_neg at h
      exact h.symm
  · intro x p hxp
    by_cases h : palma_matrix_get M i x ≠ palma_zero s
    · rw [if_pos h] at hxp
      injection hxp with hxp
      rw [← hxp]
    · rw [if_neg h] at hxp
      cases hxp

end Palma

namespace Palma

/-! ### Lemmas: round-tripping a compressed CSR matrix (C9) -/

theorem sparse_ext {x y : palma_sparse_t} (h1 : x.rows = y.rows) (h2 : x.cols = y.cols)
    (h3 : x.nnz = y.nnz) (h4 : x.semiring = y.semiring) (h5 : x.values = y.values)
    (h6 : x.col_idx = y.col_idx) (h7 : x.row_ptr = y.row_ptr) : x = y := by
  cases x
  cases y
  simp_all

theorem take_glue {α : Type} (l : List α) (a b : Nat) (hab : a ≤ b) :
    l.take a ++ (l.take b).drop a = l.take b := by
  conv_rhs => rw [← List.take_append_drop a (l.take b)]
  rw [List.take_take, Nat.min_eq_left hab]

theorem zip_length_nnz (sp : palma_sparse_t) (hvl : sp.values.length = sp.nnz)
    (hcl : sp.col_idx.length = sp.nnz) :
    (sp.col_idx.zip sp.values).length = sp.nnz := by
  rw [List.length_zip, hvl, hcl]
  exact Nat.min_self _

theorem rowSlice_eq_map_fst (sp : palma_sparse_t) (hvl : sp.values.length = sp.nnz)
    (hcl : sp.col_idx.length = sp.nnz) (r : Nat) :
    rowSlice sp r = (rowPairs sp r).map Prod.fst := by
  unfold rowSlice rowPairs
  rw [List.map_drop, List.map_take, List.map_fst_zip sp.col_idx sp.values (by omega)]

theorem csr_row_facts (sp : palma_sparse_t) (hv : csrValid sp) (i : Nat)
    (hi : i < sp.rows) :
    rowStart sp i ≤ rowStart sp (i + 1)
    ∧ rowStart sp (i + 1) ≤ (sp.col_idx.zip sp.values).length
    ∧ List.Pairwise (fun p q : Nat × Int => p.1 < q.1) (rowPairs sp i) := by
  obtain ⟨hlen, hvl, hcl, h0, hN, hmono, hsort, hbnd⟩ := hv
  have hae : rowStart sp i ≤ rowStart sp (i + 1) := hmono i hi
  have heN : rowStart sp (i + 1) ≤ sp.nnz := by
    have := rowStart_chain sp hmono (i + 1) sp.rows (by omega) (le_refl _)
    omega
  refine ⟨hae, by rw [zip_length_nnz sp hvl hcl]; omega, ?_⟩
  have := hsort i hi
  rw [rowSlice_eq_map_fst sp hvl hcl, List.pairwise_map] at this
  exact this

theorem rowPairs_props (sp : palma_sparse_t) (hv : csrCompressed sp) (r : Nat)
    (hr : r < sp.rows) :
    ∀ p ∈ rowPairs sp r, p.1 < sp.cols ∧ p.2 ≠ palma_zero sp.semiring := by
  obtain ⟨⟨hlen, hvl, hcl, h0, hN, hmono, hsort, hbnd⟩, hval⟩ := hv
  have heN : rowStart sp (r + 1) ≤ sp.nnz := by
    have := rowStart_chain sp hmono (r + 1) sp.rows (by omega) (le_refl _)
    omega
  intro p hp
  obtain ⟨t, ht, hget⟩ := List.mem_iff_getElem.mp hp
  have hzlen : (sp.col_idx.zip sp.values).length = sp.nnz := zip_length_nnz sp hvl hcl
  have htk : rowStart sp r + t < rowStart sp (r + 1) := by
    unfold rowPairs at ht
    simp only [List.length_drop, List.length_take] at ht
    omega
  have hkn : rowStart sp r + t < sp.nnz := by omega
  have hcn : rowStart sp r + t < sp.col_idx.length := by rw [hcl]; omega
  have hvn : rowStart sp r + t < sp.values.length := by rw [hvl]; omega
  have hgetp : p = (sp.col_idx.getD (rowStart sp r + t) 0,
      sp.values.getD (rowStart sp r + t) 0) := by
    rw [List.getD_eq_getElem _ _ hcn, List.getD_eq_getElem _ _ hvn, ← hget]
    unfold rowPairs
    rw [List.getElem_drop, List.getElem_take, List.getElem_zip]
  constructor
  · rw [hgetp]
    exact hbnd (rowStart sp r + t) hkn
  · rw [hgetp]
    exact hval (rowStart sp r + t) hkn

theorem filterMap_find_id (eps : Int) :
    ∀ (l : List (Nat × Int)) (cols : Nat),
      List.Pairwise (fun p q : Nat × Int => p.1 < q.1) l →
      (∀ p ∈ l, p.1 < cols) →
      (∀ p ∈ l, p.2 ≠ eps) →
      (List.range cols).filterMap
        (fun j => if rowLookup l eps j ≠ eps then some (j, rowLookup l eps j) else none)
        = l := by
  intro l
  induction l using List.reverseRecOn with
  | nil =>
      intro cols _ _ _
      rw [List.filterMap_eq_nil_iff.mpr (fun j _ => ?_)]
      have hnone : rowLookup ([] : List (Nat × Int)) eps j = eps := rfl
      rw [hnone]
      simp
  | append_singleton l p ih =>
      intro cols hsort hlt hne
      obtain ⟨hsl, hp1, hcross⟩ := List.pairwise_append.mp hsort
      have hcross' : ∀ q ∈ l, q.1 < p.1 :=
        fun q hq => hcross q hq p (List.mem_singleton.mpr rfl)
      have hp_lt : p.1 < cols := hlt p (by simp)
      have hpne : p.2 ≠ eps := hne p (by simp)
      have hfind_low : ∀ j, j < p.1 →
          (l ++ [p]).find? (fun q => q.1 == j) = l.find? (fun q => q.1 == j) := by
        intro j hj
        rw [List.find?_append]
        cases hf : l.find? (fun q => q.1 == j) with
        | some q => rfl
        | none =>
            rw [Option.none_or, List.find?_cons, List.find?_nil]
            have hb : (p.1 == j) = false := by
              simp only [beq_eq_false_iff_ne, ne_eq]
              omega
            rw [hb]
      have hfind_high : ∀ j, p.1 < j →
          (l ++ [p]).find? (fun q => q.1 == j) = none := by
        intro j hj
        rw [List.find?_eq_none]
        intro q hq
        rcases List.mem_append.mp hq with hql | hqp
        · have hqp1 := hcross' q hql
          simp only [beq_iff_eq]
          omega
        · rw [List.mem_singleton.mp hqp]
          simp only [beq_iff_eq]
          omega
      have hfind_p : (l ++ [p]).find? (fun q => q.1 == p.1) = some p := by
        rw [List.find?_append, List.find?_eq_none.mpr (fun q hq => by
          simp only [beq_iff_eq]
          have := hcross' q hq
          omega)]
        rw [Option.none_or, List.find?_cons]
        rw [show (p.1 == p.1) = true by simp]
      have hlow : ∀ j, j < p.1 → rowLookup (l ++ [p]) eps j = rowLookup l eps j := by
        intro j hj
        unfold rowLookup
        rw [hfind_low j hj]
      have hhigh : ∀ j, p.1 < j → rowLookup (l ++ [p]) eps j = eps := by
        intro j hj
        unfold rowLookup
        rw [hfind_high j hj]
      have hat : rowLookup (l ++ [p]) eps p.1 = p.2 := by
        unfold rowLookup
        rw [hfind_p]
      have h1 : cols - p.1 - 1 + 1 = cols - p.1 := by omega
      have hra := List.range'_append 0 p.1 (cols - p.1) 1
      simp only [Nat.one_mul, Nat.zero_add] at hra
      rw [show cols - p.1 + p.1 = cols by omega] at hra
      have hsplit : List.range cols =
          List.range p.1 ++ p.1 :: List.range' (p.1 + 1) (cols - p.1 - 1) := by
        rw [List.range_eq_range', ← hra, ← List.range_eq_range']
        congr 1
        conv_lhs => rw [← h1]
        rw [List.range'_succ]
      have htail : (List.range' (p.1 + 1) (cols - p.1 - 1)).filterMap
          (fun j => if rowLookup (l ++ [p]) eps j ≠ eps then
            some (j, rowLookup (l ++ [p]) eps j) else none) = [] := by
        rw [List.filterMap_eq_nil_iff.mpr (fun j hj => ?_)]
        obtain ⟨t, htlt, hteq⟩ := List.mem_range'.mp hj
        have hpj : p.1 < j := by omega
        rw [hhigh j hpj]
        simp
      have hfront : (List.range p.1).filterMap
          (fun j => if rowLookup (l ++ [p]) eps j ≠ eps then
            some (j, rowLookup (l ++ [p]) eps j) else none) = l := by
        rw [List.filterMap_congr (fun j hj => by
          rw [hlow j (List.mem_range.mp hj)])]
        exact ih p.1 hsl hcross' (fun q hq => hne q (List.mem_append_left _ hq))
      rw [hsplit, List.filterMap_append, hfront, List.filterMap_cons]
      simp only [hat, if_pos hpne, htail, Prod.mk.eta]

end Palma

namespace Palma

theorem to_dense_data_lookup (sp : palma_sparse_t) (i : Nat) (hi : i < sp.rows)
    (hae : rowStart sp i ≤ rowStart sp (i + 1))
    (he : rowStart sp (i + 1) ≤ (sp.col_idx.zip sp.values).length)
    (hkey : List.Pairwise (fun p q : Nat × Int => p.1 ≠ q.1) (rowPairs sp i)) (j : Nat) :
    (palma_sparse_to_dense sp).data i j =
      rowLookup (rowPairs sp i) (palma_zero sp.semiring) j := by
  rw [to_dense_data sp i hi hae he hkey j]
  rfl

theorem denseRowEntries_to_dense (sp : palma_sparse_t) (hv : csrCompressed sp)
    (i : Nat) (hi : i < sp.rows) :
    denseRowEntries (palma_sparse_to_dense sp) sp.semiring i = rowPairs sp i := by
  obtain ⟨hae, he, hkeylt⟩ := csr_row_facts sp hv.1 i hi
  have hkey : List.Pairwise (fun p q : Nat × Int => p.1 ≠ q.1) (rowPairs sp i) :=
    hkeylt.imp (fun h => Nat.ne_of_lt h)
  have hchar : ∀ j, (palma_sparse_to_dense sp).data i j =
      rowLookup (rowPairs sp i) (palma_zero sp.semiring) j :=
    fun j => to_dense_data_lookup sp i hi hae he hkey j
  unfold denseRowEntries
  simp only [palma_matrix_get, hchar]
  rw [(to_dense_rows sp).2]
  exact filterMap_find_id (palma_zero sp.semiring) (rowPairs sp i) sp.cols hkeylt
    (fun p hp => (rowPairs_props sp hv i hi p hp).1)
    (fun p hp => (rowPairs_props sp hv i hi p hp).2)

theorem rowPairs_flatten (sp : palma_sparse_t) (hvalid : csrValid sp) :
    ((List.range sp.rows).map (rowPairs sp)).flatten = sp.col_idx.zip sp.values := by
  obtain ⟨hlen, hvl, hcl, h0, hN, hmono, hsort, hbnd⟩ := hvalid
  have haux : ∀ r, r ≤ sp.rows → ((List.range r).map (rowPairs sp)).flatten =
      (sp.col_idx.zip sp.values).take (rowStart sp r) := by
    intro r
    induction r with
    | zero =>
        intro _
        rw [h0]
        simp
    | succ r ih =>
        intro hr
        rw [List.range_succ, List.map_append, List.flatten_append, ih (by omega)]
        simp only [List.map_cons, List.map_nil, List.flatten_cons, List.flatten_nil,
          List.append_nil]
        exact take_glue _ _ _ (hmono r (by omega))
  rw [haux sp.rows (le_refl _), hN]
  exact List.take_of_length_le (le_of_eq (zip_length_nnz sp hvl hcl))

/-- Claim C9: the two round trips of the dense↔sparse conversions.  For every
valid compressed CSR matrix `S` (no stored ε, ascending columns),
`from_dense(to_dense(S), S.semiring) = S`; and for every dense `M`,
`to_dense(from_dense(M, s))` has `M`'s dimensions and equals `M`
element-wise. -/
theorem c9_dense_sparse_roundtrip :
    (∀ sp : palma_sparse_t, csrCompressed sp →
        palma_sparse_from_dense (palma_sparse_to_dense sp) sp.semiring = sp)
    ∧ ∀ (M : palma_matrix_t) (s : SemiringTag),
        (palma_sparse_to_dense (palma_sparse_from_dense M s)).rows = M.rows
        ∧ (palma_sparse_to_dense (palma_sparse_from_dense M s)).cols = M.cols
        ∧ ∀ i j : Nat, i < M.rows → j < M.cols →
            palma_matrix_get (palma_sparse_to_dense (palma_sparse_from_dense M s)) i j
              = palma_matrix_get M i j := by
  constructor
  · intro sp hv
    obtain ⟨hlen, hvl, hcl, h0, hN, hmono, hsort, hbnd⟩ := hv.1
    have hDrows : (palma_sparse_to_dense sp).rows = sp.rows := (to_dense_rows sp).1
    have hL : (List.range sp.rows).map
        (denseRowEntries (palma_sparse_to_dense sp) sp.semiring)
        = (List.range sp.rows).map (rowPairs sp) :=
      List.map_congr_left (fun i hi =>
        denseRowEntries_to_dense sp hv i (List.mem_range.mp hi))
    have hflat : ((List.range sp.rows).map (rowPairs sp)).flatten =
        sp.col_idx.zip sp.values := rowPairs_flatten sp hv.1
    have hsum : ∀ r, r ≤ sp.rows →
        ((((List.range sp.rows).map (rowPairs sp)).take r).map List.length).sum =
          rowStart sp r := by
      intro r
      induction r with
      | zero =>
          intro _
          simpa using h0.symm
      | succ r ih =>
          intro hr
          have hrlen : r < ((List.range sp.rows).map (rowPairs sp)).length := by
            simp
            omega
          rw [sum_take_succ _ r hrlen, ih (by omega), List.getElem_map,
            List.getElem_range]
          have hchain : rowStart sp (r + 1) ≤ sp.nnz := by
            have := rowStart_chain sp hmono (r + 1) sp.rows (by omega) (le_refl _)
            omega
          have hlenr : (rowPairs sp r).length = rowStart sp (r + 1) - rowStart sp r := by
            unfold rowPairs
            rw [List.length_drop, List.length_take, zip_length_nnz sp hvl hcl,
              Nat.min_eq_left (by omega)]
          rw [hlenr]
          have := hmono r (by omega)
          omega
    apply sparse_ext
    · exact hDrows
    · exact (to_dense_rows sp).2
    · show (((List.range (palma_sparse_to_dense sp).rows).map
          (denseRowEntries (palma_sparse_to_dense sp) sp.semiring)).flatten).length =
        sp.nnz
      rw [hDrows, hL, hflat]
      exact zip_length_nnz sp hvl hcl
    · rfl
    · show (((List.range (palma_sparse_to_dense sp).rows).map
          (denseRowEntries (palma_sparse_to_dense sp) sp.semiring)).flatten).map
        Prod.snd = sp.values
      rw [hDrows, hL, hflat]
      exact List.map_snd_zip _ _ (by omega)
    · show (((List.range (palma_sparse_to_dense sp).rows).map
          (denseRowEntries (palma_sparse_to_dense sp) sp.semiring)).flatten).map
        Prod.fst = sp.col_idx
      rw [hDrows, hL, hflat]
      exact List.map_fst_zip _ _ (by omega)
    · show (List.range ((palma_sparse_to_dense sp).rows + 1)).map
          (fun r => ((((List.range (palma_sparse_to_dense sp).rows).map
            (denseRowEntries (palma_sparse_to_dense sp) sp.semiring)).take r).map
            List.length).sum) = sp.row_ptr
      rw [hDrows, hL]
      rw [List.map_congr_left (fun r hr =>
        hsum r (by have := List.mem_range.mp hr; omega))]
      apply List.ext_getElem (by simp [hlen])
      intro n h1 h2
      rw [List.getElem_map, List.getElem_range]
      unfold rowStart
      rw [List.getD_eq_getElem _ _ h2]
  · intro M s
    refine ⟨(to_dense_rows _).1, (to_dense_rows _).2, ?_⟩
    intro i j hi hj
    exact to_dense_from_dense M s i j hi hj

/-- Witness for `c9_dense_sparse_roundtrip`: round-tripping a concrete 2×3
compressed MaxPlus CSR matrix with entries (0,0)=7, (0,2)=8, (1,1)=9. -/
theorem c9_dense_sparse_roundtrip_witness :
    palma_sparse_from_dense
        (palma_sparse_to_dense ⟨2, 3, 3, .maxplus, [7, 8, 9], [0, 2, 1], [0, 2, 3]⟩)
        (palma_sparse_t.semiring ⟨2, 3, 3, .maxplus, [7, 8, 9], [0, 2, 1], [0, 2, 3]⟩) =
      ⟨2, 3, 3, .maxplus, [7, 8, 9], [0, 2, 1], [0, 2, 3]⟩ :=
  c9_dense_sparse_roundtrip.1 ⟨2, 3, 3, .maxplus, [7, 8, 9], [0, 2, 1], [0, 2, 3]⟩
    (by refine ⟨⟨rfl, rfl, rfl, rfl, rfl, ?_, ?_, ?_⟩, ?_⟩ <;> decide)

end Palma
